import Mathlib

/-!
Verification development for the `equiv_induct` temporal-induction pass and the
`opt_compare` comparison-rewriting pass of this repository.

The netlist data model, the induction worker `run`, its `create_timestep`
encoder driver, the command-line handling of `EquivInductPass::execute`, and
both versions of `optimize_compares` are shallowly embedded below, following
the source.  The external SAT solver backend (ezSAT, consumed through
`assume` / `solve(assumption)`) is abstracted as a function from the permanent
constraint set and a temporary assumption to a SAT/UNSAT answer; `solveB` is
the reference semantic instance (exhaustive truth-table satisfiability over
the finitely many atoms of a query), matching a complete solver.
-/

set_option maxHeartbeats 1000000
set_option maxRecDepth 4000

namespace EquivInduct

/-- One-bit signal: a constant bit, or a wire bit identified by a number
(numbers model `SigBit` wire identity). -/
inductive SigBit where
| const : Bool → SigBit
| wire : Nat → SigBit
deriving DecidableEq

/-- Propositional formulas over `(wire, time-step)` atoms, mirroring the ezSAT
expression connectives used by the pass (`NOT`, `IFF`, `XOR`, `OpAnd`,
constants).  The step index is an `Int`: cell templates may mention the
previous step, so step `0` atoms (the free initial state) arise at step 1. -/
inductive Formula where
| tru : Formula
| fls : Formula
| atom : Nat → Int → Formula
| neg : Formula → Formula
| iff : Formula → Formula → Formula
| xor : Formula → Formula → Formula
| andf : Formula → Formula → Formula
deriving DecidableEq

/-- Evaluate a formula under an assignment of the wire/step atoms. -/
def Formula.eval (σ : Nat → Int → Bool) : Formula → Bool
| .tru => true
| .fls => false
| .atom w t => σ w t
| .neg f => !(f.eval σ)
| .iff f g => f.eval σ == g.eval σ
| .xor f g => f.eval σ != g.eval σ
| .andf f g => f.eval σ && g.eval σ

/-- Shift every atom of a formula by `d` time steps. -/
def Formula.shift (d : Int) : Formula → Formula
| .tru => .tru
| .fls => .fls
| .atom w t => .atom w (t + d)
| .neg f => .neg (f.shift d)
| .iff f g => .iff (f.shift d) (g.shift d)
| .xor f g => .xor (f.shift d) (g.shift d)
| .andf f g => .andf (f.shift d) (g.shift d)

/-- The atoms occurring in a formula. -/
def Formula.atoms : Formula → List (Nat × Int)
| .tru => []
| .fls => []
| .atom w t => [(w, t)]
| .neg f => f.atoms
| .iff f g => f.atoms ++ g.atoms
| .xor f g => f.atoms ++ g.atoms
| .andf f g => f.atoms ++ g.atoms

/-- `ez.expression(ez.OpAnd, terms)`: conjunction of a list of formulas
(the empty conjunction is the constant true, as in ezSAT). -/
def conj (l : List Formula) : Formula := l.foldr Formula.andf Formula.tru

theorem eval_conj (σ : Nat → Int → Bool) (l : List Formula) :
    (conj l).eval σ = l.all (fun f => f.eval σ) := by
  induction l with
  | nil => rfl
  | cons f fs ih => simp only [conj, List.foldr, Formula.eval, List.all_cons] at ih ⊢; rw [ih]

theorem eval_congr {f : Formula} {σ₁ σ₂ : Nat → Int → Bool}
    (h : ∀ p ∈ f.atoms, σ₁ p.1 p.2 = σ₂ p.1 p.2) : f.eval σ₁ = f.eval σ₂ := by
  induction f with
  | tru => rfl
  | fls => rfl
  | atom w t => exact h (w, t) (by simp [Formula.atoms])
  | neg f ih => simp only [Formula.eval]; rw [ih h]
  | iff f g ihf ihg =>
      simp only [Formula.eval]
      rw [ihf fun p hp => h p (by simp [Formula.atoms, hp]),
          ihg fun p hp => h p (by simp [Formula.atoms, hp])]
  | xor f g ihf ihg =>
      simp only [Formula.eval]
      rw [ihf fun p hp => h p (by simp [Formula.atoms, hp]),
          ihg fun p hp => h p (by simp [Formula.atoms, hp])]
  | andf f g ihf ihg =>
      simp only [Formula.eval]
      rw [ihf fun p hp => h p (by simp [Formula.atoms, hp]),
          ihg fun p hp => h p (by simp [Formula.atoms, hp])]

theorem eval_shift (σ : Nat → Int → Bool) (d : Int) (f : Formula) :
    (f.shift d).eval σ = f.eval (fun w t => σ w (t + d)) := by
  induction f with
  | tru => rfl
  | fls => rfl
  | atom w t => rfl
  | neg f ih => simp [Formula.shift, Formula.eval, ih]
  | iff f g ihf ihg => simp [Formula.shift, Formula.eval, ihf, ihg]
  | xor f g ihf ihg => simp [Formula.shift, Formula.eval, ihf, ihg]
  | andf f g ihf ihg => simp [Formula.shift, Formula.eval, ihf, ihg]

theorem shift_shift (a b : Int) (f : Formula) :
    (f.shift a).shift b = f.shift (a + b) := by
  induction f with
  | tru => rfl
  | fls => rfl
  | atom w t => simp [Formula.shift, Int.add_assoc]
  | neg f ih => simp [Formula.shift, ih]
  | iff f g ihf ihg => simp [Formula.shift, ihf, ihg]
  | xor f g ihf ihg => simp [Formula.shift, ihf, ihg]
  | andf f g ihf ihg => simp [Formula.shift, ihf, ihg]

/-- Assignment reading truth of an atom off a finite list. -/
def memAsg (s : List (Nat × Int)) : Nat → Int → Bool := fun w t => decide ((w, t) ∈ s)

/-- Exhaustive (truth-table) satisfiability check: search over all subsets of
the formula's atoms.  This is the reference model of a complete SAT solver. -/
def satB (f : Formula) : Bool := f.atoms.sublists.any (fun s => f.eval (memAsg s))

/-- The solver interface consumed by the worker: permanent constraints plus a
single temporary assumption (`ez.solve(...)`; plain `ez.solve()` passes the
trivial assumption).  `true` means SAT. -/
def Solver := List Formula → Formula → Bool

/-- Semantic solver instance: SAT iff the permanent constraints together with
the assumption are jointly satisfiable. -/
def solveB : Solver := fun perms a => satB (conj (a :: perms))

theorem satB_iff (f : Formula) : satB f = true ↔ ∃ σ, f.eval σ = true := by
  constructor
  · intro h
    rcases List.any_eq_true.mp h with ⟨s, _, hs⟩
    exact ⟨memAsg s, hs⟩
  · rintro ⟨σ, hσ⟩
    apply List.any_eq_true.mpr
    refine ⟨f.atoms.filter (fun p => σ p.1 p.2), ?_, ?_⟩
    · exact List.mem_sublists.mpr (List.filter_sublist _)
    · rw [show f.eval (memAsg (f.atoms.filter (fun p => σ p.1 p.2))) = f.eval σ from ?_]
      · exact hσ
      · apply eval_congr
        intro p hp
        simp only [memAsg]
        have : ((p.1, p.2) ∈ f.atoms.filter (fun p => σ p.1 p.2)) ↔ σ p.1 p.2 = true := by
          rw [List.mem_filter]
          constructor
          · exact fun h' => h'.2
          · exact fun h' => ⟨by simpa using hp, by simpa using h'⟩
        simp [this]

theorem solveB_iff (P : List Formula) (a : Formula) :
    solveB P a = true ↔ ∃ σ, a.eval σ = true ∧ ∀ f ∈ P, f.eval σ = true := by
  unfold solveB
  rw [satB_iff]
  constructor
  · rintro ⟨σ, hσ⟩
    rw [eval_conj] at hσ
    rcases List.all_eq_true.mp hσ (a) (by simp) with h
    exact ⟨σ, h, fun f hf => List.all_eq_true.mp hσ f (by simp [hf])⟩
  · rintro ⟨σ, ha, hP⟩
    refine ⟨σ, ?_⟩
    rw [eval_conj]
    apply List.all_eq_true.mpr
    intro f hf
    rcases List.mem_cons.mp hf with h | h
    · exact h ▸ ha
    · exact hP f h

theorem solveB_false_iff (P : List Formula) (a : Formula) :
    solveB P a = false ↔ ∀ σ, a.eval σ = false ∨ ∃ f ∈ P, f.eval σ = false := by
  rw [← Bool.not_eq_true, solveB_iff]
  constructor
  · intro h σ
    by_contra hc
    push_neg at hc
    exact h ⟨σ, by simpa using hc.1, fun f hf => by
      have := hc.2 f hf
      simpa using this⟩
  · rintro h ⟨σ, ha, hP⟩
    rcases h σ with h' | ⟨f, hf, h'⟩
    · rw [ha] at h'; simp at h'
    · rw [hP f hf] at h'; simp at h'

/-- If even the trivial assumption is UNSAT (the permanent constraints are
contradictory), every later query over the same permanent set is UNSAT. -/
theorem solveB_false_mono {P : List Formula} (h : solveB P .tru = false) (q : Formula) :
    solveB P q = false := by
  rw [solveB_false_iff] at h ⊢
  intro σ
  rcases h σ with h' | h'
  · simp [Formula.eval] at h'
  · exact Or.inr h'

/-- A self-XOR assumption is unsatisfiable on its own. -/
theorem solveB_xor_self (P : List Formula) (f : Formula) :
    solveB P (Formula.xor f f) = false := by
  rw [solveB_false_iff]
  intro σ
  left
  simp [Formula.eval]

/-- A netlist cell as the worker sees it: an identity (modelling pointer
identity), its type string, the SatGen import outcome for it (`hasModel` is
`importCell`'s return value, `template` the clauses it emits, with atoms at
step offsets relative to the instantiation step), and single-bit `A`/`B`/`Y`
ports (the pass reads them through `to_single_sigbit`).  `hasModel` and
`template` are modelled from the spec: the cell-to-CNF encoder
(`kernel/satgen.h`) is not part of the sources under verification; per the
spec it emits, per `(cell, step)`, clauses tying that step's outputs to
inputs at the same or previous step, and reports cell types it cannot model. -/
structure Cell where
  cid : Nat
  ctype : String
  hasModel : Bool
  template : Formula
  portA : SigBit
  portB : SigBit
  portY : SigBit
deriving DecidableEq

/-- `satgen.importSigBit(bit, step)`: constants become constant literals,
wire bits the solver variable of the canonical bit at that step. -/
def importSigBit (canon : SigBit → SigBit) (b : SigBit) (step : Int) : Formula :=
  match canon b with
  | .const c => if c then .tru else .fls
  | .wire w => .atom w step

/-- The contribution of one cell to `ez_equal_terms` in `create_timestep`:
an `IFF` of the two canonical marker bits, for `$equiv` cells whose canonical
`A` and `B` bits differ; nothing otherwise. -/
def equivTerm (canon : SigBit → SigBit) (c : Cell) (step : Int) : Option Formula :=
  if c.ctype = "$equiv" then
    if canon c.portA ≠ canon c.portB then
      some (.iff (importSigBit canon (canon c.portA) step)
                 (importSigBit canon (canon c.portB) step))
    else none
  else none

/-- `ez_step_is_consistent[step]`: the conjunction of the marker `IFF` terms
at a step. -/
def consistentF (cells : List Cell) (canon : SigBit → SigBit) (step : Int) : Formula :=
  conj (cells.filterMap (fun c => equivTerm canon c step))

/-- Worker-owned solver/bookkeeping state: the permanent clause set
(`importCell` clauses plus `ez.assume`d step consistency), the set of steps
`create_timestep` has been run for (the keys of `ez_step_is_consistent`), the
status of the `log_assert` in `create_timestep`, the per-cell warning cache
and the warnings issued so far. -/
structure WState where
  perms : List Formula
  ctSteps : List Nat
  assertOk : Bool
  warnCache : List Nat
  warns : List (Nat × String)
deriving DecidableEq

/-- Per-cell body of `create_timestep`'s `importCell` call: cells with a SAT
model contribute their clauses at this step; a cell without a model gets a
one-shot warning recorded in `cell_warn_cache` and contributes nothing (its
outputs stay unconstrained). -/
def importCellStep (st : WState) (c : Cell) (step : Int) : WState :=
  if c.hasModel then { st with perms := st.perms ++ [c.template.shift step] }
  else if st.warnCache.contains c.cid then st
  else { st with warnCache := st.warnCache ++ [c.cid], warns := st.warns ++ [(c.cid, c.ctype)] }

/-- `EquivInductWorker::create_timestep(step)`: import every cell at `step`,
collect the marker `IFF` terms, assert the step was not encoded before, and
define `consistent[step]`. -/
def create_timestep (cells : List Cell) (canon : SigBit → SigBit) (step : Nat) (st : WState) :
    WState × Formula :=
  let st1 := cells.foldl (fun s c => importCellStep s c (step : Int)) st
  ({ st1 with
      assertOk := st1.assertOk && !(st1.ctSteps.contains step),
      ctSteps := st1.ctSteps ++ [step] },
   consistentF cells canon (step : Int))

/-- Observable actions of one worker run: the solver queries with their
results (base case, inductive step, per-marker fallback) and the `$equiv`
`B`-port rewrites. -/
inductive Event where
| base : Nat → Bool → Event
| istep : Nat → Bool → Event
| fback : Nat → Formula → Bool → Event
| rewrite : Nat → Event
deriving DecidableEq

/-- `ez.assume(ez_step_is_consistent[step])`: permanently add the step's
consistency formula. -/
def assumeStep (st : WState) (cur : Formula) : WState :=
  { st with perms := st.perms ++ [cur] }

/-- One full iteration of the induction loop's encoding work at loop variable
`step`: assume `consistent[step]`, then encode step `step+1`. -/
def loopIter (cells : List Cell) (canon : SigBit → SigBit) (step : Nat) (p : WState × Formula) :
    WState × Formula :=
  create_timestep cells canon (step + 1) (assumeStep p.1 p.2)

/-- `j` successive induction-loop iterations starting at loop variable `step`. -/
def iterN (cells : List Cell) (canon : SigBit → SigBit) : Nat → Nat → WState × Formula → WState × Formula
| 0, _, p => p
| j+1, step, p => iterN cells canon j (step + 1) (loopIter cells canon step p)

/-- The base-case query (`ez.solve()`) issued at the `j`-th loop iteration
when the loop starts from `(step, p)`. -/
def baseQ (S : Solver) (cells : List Cell) (canon : SigBit → SigBit) (step j : Nat)
    (p : WState × Formula) : Bool :=
  let pj := iterN cells canon j step p
  S (assumeStep pj.1 pj.2).perms Formula.tru

/-- The inductive-step query (`ez.solve(¬consistent[step+1])`) issued at the
`j`-th loop iteration when the loop starts from `(step, p)`. -/
def istepQ (S : Solver) (cells : List Cell) (canon : SigBit → SigBit) (step j : Nat)
    (p : WState × Formula) : Bool :=
  let p' := loopIter cells canon (step + j) (iterN cells canon j step p)
  S p'.1.perms (Formula.neg p'.2)

/-- The fallback query formula for a marker: `A_bit ⊕ B_bit` at step
`max_seq + 1`, bits taken through the signal map. -/
def xorQuery (canon : SigBit → SigBit) (c : Cell) (maxseq : Nat) : Formula :=
  .xor (importSigBit canon (canon c.portA) ((maxseq : Int) + 1))
       (importSigBit canon (canon c.portB) ((maxseq : Int) + 1))

/-- The per-marker fallback sweep at the end of `run`: for each workset cell,
solve under its XOR assumption; on UNSAT rewrite the marker's `B` port.
Returns the events and the rewritten cell ids. -/
def fallbackLoop (S : Solver) (canon : SigBit → SigBit) (perms : List Formula) (maxseq : Nat) :
    List Cell → List Event × List Nat
| [] => ([], [])
| c :: rest =>
    let q := xorQuery canon c maxseq
    let r := S perms q
    let fb := fallbackLoop S canon perms maxseq rest
    if r = false then (Event.fback c.cid q r :: Event.rewrite c.cid :: fb.1, c.cid :: fb.2)
    else (Event.fback c.cid q r :: fb.1, fb.2)

/-- The induction loop of `EquivInductWorker::run` (`for step = 1 .. max_seq`),
with `fuel = max_seq + 1 - step` remaining iterations.  A base-case UNSAT
breaks out of the loop (and control continues with the fallback sweep); an
inductive-step UNSAT rewrites the whole workset and returns. -/
def runLoop (S : Solver) (cells : List Cell) (canon : SigBit → SigBit) (ws : List Cell)
    (maxseq : Nat) : Nat → Nat → WState → Formula → WState × List Event × List Nat × Nat
| _, 0, st, _ =>
    let fb := fallbackLoop S canon st.perms maxseq ws
    (st, fb.1, fb.2, fb.2.length)
| step, fuel+1, st, cur =>
    let st1 := assumeStep st cur
    let b := S st1.perms Formula.tru
    if b = false then
      let fb := fallbackLoop S canon st1.perms maxseq ws
      (st1, Event.base step b :: fb.1, fb.2, fb.2.length)
    else
      let p2 := create_timestep cells canon (step + 1) st1
      let r := S p2.1.perms (Formula.neg p2.2)
      if r = false then
        (p2.1, Event.base step b :: Event.istep step r :: ws.map (fun c => Event.rewrite c.cid),
         ws.map (fun c => c.cid), ws.length)
      else
        let rest := runLoop S cells canon ws maxseq (step + 1) fuel p2.1 p2.2
        (rest.1, Event.base step b :: Event.istep step r :: rest.2.1, rest.2.2)

/-- The worker's initial solver state. -/
def wInit : WState := ⟨[], [], true, [], []⟩

/-- The encoding of step 1 performed before the induction loop starts. -/
def runInit (cells : List Cell) (canon : SigBit → SigBit) : WState × Formula :=
  create_timestep cells canon 1 wInit

/-- Result of one worker run: the module's cells after any rewrites, the
success counter, the event trace, the rewritten cell ids and the final
worker state. -/
structure RunResult where
  cells : List Cell
  success : Nat
  events : List Event
  rewritten : List Nat
  final : WState
deriving DecidableEq

/-- Apply `cell->setPort("\\B", cell->getPort("\\A"))` to every cell whose id
was proven. -/
def applyRewrites (rws : List Nat) (cells : List Cell) : List Cell :=
  cells.map (fun c => if rws.contains c.cid then { c with portB := c.portA } else c)

/-- `EquivInductWorker::run()`: encode step 1, run the induction loop, and
(unless an inductive step succeeded) the per-marker fallback sweep. -/
def run (S : Solver) (cells : List Cell) (canon : SigBit → SigBit) (ws : List Cell)
    (maxseq : Nat) : RunResult :=
  let p0 := runInit cells canon
  let res := runLoop S cells canon ws maxseq 1 maxseq p0.1 p0.2
  { cells := applyRewrites res.2.2.1 cells
    success := res.2.2.2
    events := res.2.1
    rewritten := res.2.2.1
    final := res.1 }

/-- The driver's workset construction in `EquivInductPass::execute`: selected
`$equiv` cells whose `A` and `B` ports differ syntactically. -/
def driverWorkset (cells : List Cell) : List Cell :=
  cells.filter (fun c => c.ctype == "$equiv" && c.portA != c.portB)

/-- The driver's per-module processing: skip modules with an empty workset,
otherwise run a fresh worker.  Returns the module's cells afterwards, the
worker's success count, and the rewritten cell ids. -/
def processModule (S : Solver) (cells : List Cell) (canon : SigBit → SigBit) (maxseq : Nat) :
    List Cell × Nat × List Nat :=
  let ws := driverWorkset cells
  if ws.isEmpty then (cells, 0, [])
  else
    let r := run S cells canon ws maxseq
    (r.cells, r.success, r.rewritten)

/-- The clauses `importCell` adds when `create_timestep` runs at a step: the
templates of the modellable cells, instantiated at that step. -/
def stepClauses (cells : List Cell) (step : Int) : List Formula :=
  cells.filterMap (fun c => if c.hasModel then some (c.template.shift step) else none)

theorem foldl_import_perms (cells : List Cell) (step : Int) :
    ∀ st : WState, (cells.foldl (fun s c => importCellStep s c step) st).perms
      = st.perms ++ stepClauses cells step := by
  induction cells with
  | nil => intro st; simp [stepClauses]
  | cons c rest ih =>
      intro st
      simp only [List.foldl_cons, ih, stepClauses, List.filterMap_cons]
      by_cases hm : c.hasModel
      · simp [importCellStep, hm, stepClauses]
      · simp only [importCellStep, hm, if_false, Bool.false_eq_true]
        by_cases hc : c.cid ∈ st.warnCache <;> simp [hc, stepClauses]

theorem foldl_import_ctSteps (cells : List Cell) (step : Int) :
    ∀ st : WState, (cells.foldl (fun s c => importCellStep s c step) st).ctSteps = st.ctSteps := by
  induction cells with
  | nil => intro st; rfl
  | cons c rest ih =>
      intro st
      simp only [List.foldl_cons, ih]
      unfold importCellStep
      by_cases hm : c.hasModel
      · simp [hm]
      · by_cases hc : c.cid ∈ st.warnCache <;> simp [hm, hc]

theorem foldl_import_assertOk (cells : List Cell) (step : Int) :
    ∀ st : WState, (cells.foldl (fun s c => importCellStep s c step) st).assertOk = st.assertOk := by
  induction cells with
  | nil => intro st; rfl
  | cons c rest ih =>
      intro st
      simp only [List.foldl_cons, ih]
      unfold importCellStep
      by_cases hm : c.hasModel
      · simp [hm]
      · by_cases hc : c.cid ∈ st.warnCache <;> simp [hm, hc]

theorem create_timestep_snd (cells : List Cell) (canon : SigBit → SigBit) (step : Nat)
    (st : WState) : (create_timestep cells canon step st).2 = consistentF cells canon step := rfl

theorem create_timestep_perms (cells : List Cell) (canon : SigBit → SigBit) (step : Nat)
    (st : WState) : (create_timestep cells canon step st).1.perms
      = st.perms ++ stepClauses cells step := by
  simp [create_timestep, foldl_import_perms]

theorem create_timestep_ctSteps (cells : List Cell) (canon : SigBit → SigBit) (step : Nat)
    (st : WState) : (create_timestep cells canon step st).1.ctSteps = st.ctSteps ++ [step] := by
  simp [create_timestep, foldl_import_ctSteps]

theorem create_timestep_assertOk (cells : List Cell) (canon : SigBit → SigBit) (step : Nat)
    (st : WState) : (create_timestep cells canon step st).1.assertOk
      = (st.assertOk && !(st.ctSteps.contains step)) := by
  simp [create_timestep, foldl_import_assertOk, foldl_import_ctSteps]

theorem applyRewrites_nil (cells : List Cell) : applyRewrites [] cells = cells := by
  unfold applyRewrites
  induction cells with
  | nil => rfl
  | cons c rest ih => simp_all

theorem applyRewrites_mem {rws : List Nat} {cells : List Cell} {c' : Cell}
    (h : c' ∈ applyRewrites rws cells) (hc : c'.cid ∈ rws) : c'.portB = c'.portA := by
  rcases List.mem_map.mp h with ⟨c, _, hmap⟩
  by_cases hin : rws.contains c.cid
  · simp only [hin, if_true] at hmap
    rw [← hmap]
  · simp only [hin, Bool.false_eq_true, if_false] at hmap
    subst hmap
    exact absurd (List.elem_iff.mpr hc) (by simpa using hin)

/-- The interleaved base/inductive-step events of successfully passed loop
iterations starting at `step`. -/
def truePairs : Nat → Nat → List Event
| _, 0 => []
| step, j+1 => Event.base step true :: Event.istep step true :: truePairs (step + 1) j

theorem truePairs_mem {e : Event} : ∀ {step j : Nat}, e ∈ truePairs step j →
    (∃ i, e = .base i true) ∨ (∃ i, e = .istep i true) := by
  intro step j
  induction j generalizing step with
  | zero => intro h; simp [truePairs] at h
  | succ j ih =>
      intro h
      simp only [truePairs, List.mem_cons] at h
      rcases h with h | h | h
      · exact Or.inl ⟨step, h⟩
      · exact Or.inr ⟨step, h⟩
      · exact ih h

theorem bool_false_or_true (b : Bool) : b = false ∨ b = true := by
  cases b
  · exact Or.inl rfl
  · exact Or.inr rfl

section FallbackLemmas

variable (S : Solver) (canon : SigBit → SigBit) (P : List Formula) (k : Nat)

theorem fb_cons_false {c : Cell} {ws : List Cell}
    (hr : S P (xorQuery canon c k) = false) :
    fallbackLoop S canon P k (c :: ws) =
      (Event.fback c.cid (xorQuery canon c k) false :: Event.rewrite c.cid ::
        (fallbackLoop S canon P k ws).1,
       c.cid :: (fallbackLoop S canon P k ws).2) := by
  simp [fallbackLoop, hr]

theorem fb_cons_true {c : Cell} {ws : List Cell}
    (hr : S P (xorQuery canon c k) = true) :
    fallbackLoop S canon P k (c :: ws) =
      (Event.fback c.cid (xorQuery canon c k) true :: (fallbackLoop S canon P k ws).1,
       (fallbackLoop S canon P k ws).2) := by
  simp [fallbackLoop, hr]

theorem fb_events_mem {e : Event} : ∀ {ws : List Cell},
    e ∈ (fallbackLoop S canon P k ws).1 →
    (∃ cid q b, e = .fback cid q b) ∨ (∃ cid, e = .rewrite cid) := by
  intro ws
  induction ws with
  | nil => intro h; simp [fallbackLoop] at h
  | cons c rest ih =>
      intro h
      rcases bool_false_or_true (S P (xorQuery canon c k)) with hr | hr
      · rw [fb_cons_false S canon P k hr] at h
        rcases List.mem_cons.mp h with h | h
        · exact Or.inl ⟨_, _, _, h⟩
        rcases List.mem_cons.mp h with h | h
        · exact Or.inr ⟨_, h⟩
        · exact ih h
      · rw [fb_cons_true S canon P k hr] at h
        rcases List.mem_cons.mp h with h | h
        · exact Or.inl ⟨_, _, _, h⟩
        · exact ih h

theorem fb_rewrite_just {cid : Nat} : ∀ {ws : List Cell},
    Event.rewrite cid ∈ (fallbackLoop S canon P k ws).1 →
    ∃ q, Event.fback cid q false ∈ (fallbackLoop S canon P k ws).1 := by
  intro ws
  induction ws with
  | nil => intro h; simp [fallbackLoop] at h
  | cons c rest ih =>
      intro h
      rcases bool_false_or_true (S P (xorQuery canon c k)) with hr | hr
      · rw [fb_cons_false S canon P k hr] at h ⊢
        rcases List.mem_cons.mp h with h | h
        · exact absurd h (by simp)
        rcases List.mem_cons.mp h with h | h
        · rcases Event.rewrite.inj h with rfl
          exact ⟨xorQuery canon c k, List.mem_cons_self _ _⟩
        · rcases ih h with ⟨q, hq⟩
          exact ⟨q, List.mem_cons_of_mem _ (List.mem_cons_of_mem _ hq)⟩
      · rw [fb_cons_true S canon P k hr] at h ⊢
        rcases List.mem_cons.mp h with h | h
        · exact absurd h (by simp)
        · rcases ih h with ⟨q, hq⟩
          exact ⟨q, List.mem_cons_of_mem _ hq⟩

theorem fb_fback_mem {c : Cell} : ∀ {ws : List Cell}, c ∈ ws →
    Event.fback c.cid (xorQuery canon c k) (S P (xorQuery canon c k))
      ∈ (fallbackLoop S canon P k ws).1 := by
  intro ws
  induction ws with
  | nil => intro h; simp at h
  | cons c0 rest ih =>
      intro h
      rcases List.mem_cons.mp h with rfl | h
      · rcases bool_false_or_true (S P (xorQuery canon c k)) with hr | hr
        · rw [fb_cons_false S canon P k hr, hr]
          exact List.mem_cons_self _ _
        · rw [fb_cons_true S canon P k hr, hr]
          exact List.mem_cons_self _ _
      · rcases bool_false_or_true (S P (xorQuery canon c0 k)) with hr | hr
        · rw [fb_cons_false S canon P k hr]
          exact List.mem_cons_of_mem _ (List.mem_cons_of_mem _ (ih h))
        · rw [fb_cons_true S canon P k hr]
          exact List.mem_cons_of_mem _ (ih h)

theorem fb_mem_of_false {c : Cell} : ∀ {ws : List Cell}, c ∈ ws →
    S P (xorQuery canon c k) = false → c.cid ∈ (fallbackLoop S canon P k ws).2 := by
  intro ws
  induction ws with
  | nil => intro h; simp at h
  | cons c0 rest ih =>
      intro h hf
      rcases List.mem_cons.mp h with rfl | h
      · rw [fb_cons_false S canon P k hf]
        exact List.mem_cons_self _ _
      · rcases bool_false_or_true (S P (xorQuery canon c0 k)) with hr | hr
        · rw [fb_cons_false S canon P k hr]
          exact List.mem_cons_of_mem _ (ih h hf)
        · rw [fb_cons_true S canon P k hr]
          exact ih h hf

theorem fb_rws_subset : ∀ {ws : List Cell},
    (fallbackLoop S canon P k ws).2 ⊆ ws.map (fun c => c.cid) := by
  intro ws
  induction ws with
  | nil => simp [fallbackLoop]
  | cons c0 rest ih =>
      rcases bool_false_or_true (S P (xorQuery canon c0 k)) with hr | hr
      · rw [fb_cons_false S canon P k hr, List.map_cons]
        intro x hx
        rcases List.mem_cons.mp hx with rfl | hx
        · exact List.mem_cons_self _ _
        · exact List.mem_cons_of_mem _ (ih hx)
      · rw [fb_cons_true S canon P k hr, List.map_cons]
        intro x hx
        exact List.mem_cons_of_mem _ (ih hx)

theorem fb_all_true {ws : List Cell}
    (h : ∀ c ∈ ws, S P (xorQuery canon c k) = true) :
    (fallbackLoop S canon P k ws).2 = [] := by
  induction ws with
  | nil => rfl
  | cons c0 rest ih =>
      rw [fb_cons_true S canon P k (h c0 (List.mem_cons_self _ _))]
      exact ih (fun c hc => h c (List.mem_cons_of_mem _ hc))

theorem fb_all_false {ws : List Cell}
    (h : ∀ c ∈ ws, S P (xorQuery canon c k) = false) :
    (fallbackLoop S canon P k ws).2 = ws.map (fun c => c.cid) := by
  induction ws with
  | nil => rfl
  | cons c0 rest ih =>
      rw [fb_cons_false S canon P k (h c0 (List.mem_cons_self _ _)), List.map_cons]
      rw [ih (fun c hc => h c (List.mem_cons_of_mem _ hc))]

theorem fb_not_mem_of_true {c : Cell} : ∀ {ws : List Cell},
    (ws.map (fun c => c.cid)).Nodup → c ∈ ws →
    S P (xorQuery canon c k) = true → c.cid ∉ (fallbackLoop S canon P k ws).2 := by
  intro ws
  induction ws with
  | nil => intro _ h; simp at h
  | cons c0 rest ih =>
      intro hnd h ht hm
      have h' := hnd
      simp only [List.map_cons, List.nodup_cons] at h'
      have hnd0 : c0.cid ∉ rest.map (fun c => c.cid) := h'.1
      have hnd2 : (rest.map (fun c => c.cid)).Nodup := h'.2
      rcases List.mem_cons.mp h with rfl | hc
      · rw [fb_cons_true S canon P k ht] at hm
        exact hnd0 (fb_rws_subset S canon P k hm)
      · rcases bool_false_or_true (S P (xorQuery canon c0 k)) with hr | hr
        · rw [fb_cons_false S canon P k hr] at hm
          rcases List.mem_cons.mp hm with hm | hm
          · exact hnd0 (hm ▸ List.mem_map.mpr ⟨c, hc, rfl⟩)
          · exact ih hnd2 hc ht hm
        · rw [fb_cons_true S canon P k hr] at hm
          exact ih hnd2 hc ht hm

theorem fb_rws_iff {c : Cell} {ws : List Cell}
    (hnd : (ws.map (fun c => c.cid)).Nodup) (h : c ∈ ws) :
    c.cid ∈ (fallbackLoop S canon P k ws).2 ↔ S P (xorQuery canon c k) = false := by
  constructor
  · intro hm
    rcases bool_false_or_true (S P (xorQuery canon c k)) with hr | hr
    · exact hr
    · exact absurd hm (fb_not_mem_of_true S canon P k hnd h hr)
  · exact fb_mem_of_false S canon P k h

end FallbackLemmas

/-- The result quadruple produced when control reaches the per-marker fallback
sweep in state `st`. -/
def fbResult (S : Solver) (canon : SigBit → SigBit) (maxseq : Nat) (ws : List Cell)
    (st : WState) : WState × List Event × List Nat × Nat :=
  (st, (fallbackLoop S canon st.perms maxseq ws).1,
   (fallbackLoop S canon st.perms maxseq ws).2,
   (fallbackLoop S canon st.perms maxseq ws).2.length)

/-- Prepend already-recorded events to a loop result. -/
def consEvents (es : List Event) (r : WState × List Event × List Nat × Nat) :
    WState × List Event × List Nat × Nat := (r.1, es ++ r.2.1, r.2.2)

theorem consEvents_consEvents (a b : List Event) (r : WState × List Event × List Nat × Nat) :
    consEvents a (consEvents b r) = consEvents (a ++ b) r := by
  simp [consEvents]

theorem runLoop_zero (S : Solver) (cells : List Cell) (canon : SigBit → SigBit)
    (ws : List Cell) (maxseq step : Nat) (st : WState) (cur : Formula) :
    runLoop S cells canon ws maxseq step 0 st cur = fbResult S canon maxseq ws st := rfl

theorem runLoop_succ_break (S : Solver) (cells : List Cell) (canon : SigBit → SigBit)
    (ws : List Cell) (maxseq step fuel : Nat) (st : WState) (cur : Formula)
    (hb : S (assumeStep st cur).perms Formula.tru = false) :
    runLoop S cells canon ws maxseq step (fuel + 1) st cur =
      consEvents [Event.base step false] (fbResult S canon maxseq ws (assumeStep st cur)) := by
  simp [runLoop, hb, fbResult, consEvents]

theorem runLoop_succ_unsat (S : Solver) (cells : List Cell) (canon : SigBit → SigBit)
    (ws : List Cell) (maxseq step fuel : Nat) (st : WState) (cur : Formula)
    (hb : S (assumeStep st cur).perms Formula.tru = true)
    (hr : S (loopIter cells canon step (st, cur)).1.perms
            (Formula.neg (loopIter cells canon step (st, cur)).2) = false) :
    runLoop S cells canon ws maxseq step (fuel + 1) st cur =
      ((loopIter cells canon step (st, cur)).1,
       Event.base step true :: Event.istep step false ::
         ws.map (fun c => Event.rewrite c.cid),
       ws.map (fun c => c.cid), ws.length) := by
  simp only [runLoop, loopIter] at hr ⊢
  rw [hb, hr]
  simp

theorem runLoop_succ_continue (S : Solver) (cells : List Cell) (canon : SigBit → SigBit)
    (ws : List Cell) (maxseq step fuel : Nat) (st : WState) (cur : Formula)
    (hb : S (assumeStep st cur).perms Formula.tru = true)
    (hr : S (loopIter cells canon step (st, cur)).1.perms
            (Formula.neg (loopIter cells canon step (st, cur)).2) = true) :
    runLoop S cells canon ws maxseq step (fuel + 1) st cur =
      consEvents [Event.base step true, Event.istep step true]
        (runLoop S cells canon ws maxseq (step + 1) fuel
          (loopIter cells canon step (st, cur)).1 (loopIter cells canon step (st, cur)).2) := by
  simp only [runLoop, loopIter] at hr ⊢
  rw [hb, hr]
  simp [consEvents]

theorem baseQ_zero (S : Solver) (cells : List Cell) (canon : SigBit → SigBit)
    (step : Nat) (p : WState × Formula) :
    baseQ S cells canon step 0 p = S (assumeStep p.1 p.2).perms Formula.tru := rfl

theorem istepQ_zero (S : Solver) (cells : List Cell) (canon : SigBit → SigBit)
    (step : Nat) (p : WState × Formula) :
    istepQ S cells canon step 0 p =
      S (loopIter cells canon step p).1.perms (Formula.neg (loopIter cells canon step p).2) := by
  unfold istepQ
  rfl

theorem baseQ_succ (S : Solver) (cells : List Cell) (canon : SigBit → SigBit)
    (step i : Nat) (p : WState × Formula) :
    baseQ S cells canon step (i + 1) p
      = baseQ S cells canon (step + 1) i (loopIter cells canon step p) := rfl

theorem istepQ_succ (S : Solver) (cells : List Cell) (canon : SigBit → SigBit)
    (step i : Nat) (p : WState × Formula) :
    istepQ S cells canon step (i + 1) p
      = istepQ S cells canon (step + 1) i (loopIter cells canon step p) := by
  unfold istepQ
  have h : step + (i + 1) = step + 1 + i := by omega
  rw [h]
  rfl

theorem iterN_succ (cells : List Cell) (canon : SigBit → SigBit) (j step : Nat)
    (p : WState × Formula) :
    iterN cells canon (j + 1) step p = iterN cells canon j (step + 1) (loopIter cells canon step p) := rfl

/-- Trichotomy for the induction loop: either some inductive-step query is the
first UNSAT answer (whole workset proven, immediate return), or some base-case
query is the first UNSAT answer (break to the fallback sweep), or every query
of every iteration is SAT and the loop runs to exhaustion followed by the
fallback sweep. -/
theorem runLoop_shape (S : Solver) (cells : List Cell) (canon : SigBit → SigBit)
    (ws : List Cell) (maxseq : Nat) :
    ∀ (fuel step : Nat) (st : WState) (cur : Formula),
    (∃ j, j < fuel ∧
      (∀ i, i < j → baseQ S cells canon step i (st, cur) = true ∧
                    istepQ S cells canon step i (st, cur) = true) ∧
      baseQ S cells canon step j (st, cur) = true ∧
      istepQ S cells canon step j (st, cur) = false ∧
      runLoop S cells canon ws maxseq step fuel st cur =
        ((loopIter cells canon (step + j) (iterN cells canon j step (st, cur))).1,
         truePairs step j ++
           Event.base (step + j) true :: Event.istep (step + j) false ::
             ws.map (fun c => Event.rewrite c.cid),
         ws.map (fun c => c.cid), ws.length)) ∨
    (∃ j, j < fuel ∧
      (∀ i, i < j → baseQ S cells canon step i (st, cur) = true ∧
                    istepQ S cells canon step i (st, cur) = true) ∧
      baseQ S cells canon step j (st, cur) = false ∧
      runLoop S cells canon ws maxseq step fuel st cur =
        consEvents (truePairs step j ++ [Event.base (step + j) false])
          (fbResult S canon maxseq ws
            (assumeStep (iterN cells canon j step (st, cur)).1
              (iterN cells canon j step (st, cur)).2))) ∨
    ((∀ i, i < fuel → baseQ S cells canon step i (st, cur) = true ∧
                      istepQ S cells canon step i (st, cur) = true) ∧
      runLoop S cells canon ws maxseq step fuel st cur =
        consEvents (truePairs step fuel)
          (fbResult S canon maxseq ws (iterN cells canon fuel step (st, cur)).1)) := by
  intro fuel
  induction fuel with
  | zero =>
      intro step st cur
      right; right
      refine ⟨fun i hi => absurd hi (Nat.not_lt_zero i), ?_⟩
      rw [runLoop_zero]
      rfl
  | succ fuel ih =>
      intro step st cur
      rcases bool_false_or_true (S (assumeStep st cur).perms Formula.tru) with hb | hb
      · right; left
        refine ⟨0, Nat.succ_pos _, fun i hi => absurd hi (Nat.not_lt_zero i), hb, ?_⟩
        rw [runLoop_succ_break S cells canon ws maxseq step fuel st cur hb]
        rfl
      · rcases bool_false_or_true (S (loopIter cells canon step (st, cur)).1.perms
            (Formula.neg (loopIter cells canon step (st, cur)).2)) with hr | hr
        · left
          refine ⟨0, Nat.succ_pos _, fun i hi => absurd hi (Nat.not_lt_zero i), hb, hr, ?_⟩
          rw [runLoop_succ_unsat S cells canon ws maxseq step fuel st cur hb hr]
          rfl
        · -- both queries of this iteration are SAT: recurse
          have hstep := runLoop_succ_continue S cells canon ws maxseq step fuel st cur hb hr
          have hiter : ∀ i, baseQ S cells canon step (i + 1) (st, cur)
                = baseQ S cells canon (step + 1) i (loopIter cells canon step (st, cur)) :=
            fun i => baseQ_succ S cells canon step i (st, cur)
          have hiter' : ∀ i, istepQ S cells canon step (i + 1) (st, cur)
                = istepQ S cells canon (step + 1) i (loopIter cells canon step (st, cur)) :=
            fun i => istepQ_succ S cells canon step i (st, cur)
          have hpair : ∀ i, i < 1 → baseQ S cells canon step i (st, cur) = true ∧
              istepQ S cells canon step i (st, cur) = true := by
            intro i hi
            interval_cases i
            exact ⟨hb, hr⟩
          rcases ih (step + 1) (loopIter cells canon step (st, cur)).1
              (loopIter cells canon step (st, cur)).2 with
            ⟨j, hj, hall, hbq, hiq, heq⟩ | ⟨j, hj, hall, hbq, heq⟩ | ⟨hall, heq⟩
          · left
            refine ⟨j + 1, Nat.succ_lt_succ hj, ?_, ?_, ?_, ?_⟩
            · intro i hi
              match i with
              | 0 => exact hpair 0 Nat.one_pos
              | i + 1 =>
                  rw [hiter, hiter']
                  exact hall i (Nat.lt_of_succ_lt_succ hi)
            · rw [hiter]; exact hbq
            · rw [hiter']; exact hiq
            · rw [hstep, heq]
              have harith : step + 1 + j = step + (j + 1) := by omega
              simp only [consEvents, iterN_succ, truePairs, harith]
              rfl
          · right; left
            refine ⟨j + 1, Nat.succ_lt_succ hj, ?_, ?_, ?_⟩
            · intro i hi
              match i with
              | 0 => exact hpair 0 Nat.one_pos
              | i + 1 =>
                  rw [hiter, hiter']
                  exact hall i (Nat.lt_of_succ_lt_succ hi)
            · rw [hiter]; exact hbq
            · rw [hstep, heq, consEvents_consEvents]
              have harith : step + 1 + j = step + (j + 1) := by omega
              simp only [iterN_succ, truePairs, harith]
              rfl
          · right; right
            refine ⟨?_, ?_⟩
            · intro i hi
              match i with
              | 0 => exact hpair 0 Nat.one_pos
              | i + 1 =>
                  rw [hiter, hiter']
                  exact hall i (Nat.lt_of_succ_lt_succ hi)
            · rw [hstep, heq, consEvents_consEvents]
              simp only [iterN_succ, truePairs]
              rfl

theorem run_eq (S : Solver) (cells : List Cell) (canon : SigBit → SigBit) (ws : List Cell)
    (maxseq : Nat) :
    run S cells canon ws maxseq =
      { cells := applyRewrites (runLoop S cells canon ws maxseq 1 maxseq
          (runInit cells canon).1 (runInit cells canon).2).2.2.1 cells
        success := (runLoop S cells canon ws maxseq 1 maxseq
          (runInit cells canon).1 (runInit cells canon).2).2.2.2
        events := (runLoop S cells canon ws maxseq 1 maxseq
          (runInit cells canon).1 (runInit cells canon).2).2.1
        rewritten := (runLoop S cells canon ws maxseq 1 maxseq
          (runInit cells canon).1 (runInit cells canon).2).2.2.1
        final := (runLoop S cells canon ws maxseq 1 maxseq
          (runInit cells canon).1 (runInit cells canon).2).1 } := rfl

theorem truePairs_no_rewrite {cid : Nat} {step j : Nat} :
    Event.rewrite cid ∉ truePairs step j := by
  intro h
  rcases truePairs_mem h with ⟨i, h'⟩ | ⟨i, h'⟩ <;> simp at h'

theorem truePairs_no_istep_false {i step j : Nat} :
    Event.istep i false ∉ truePairs step j := by
  intro h
  rcases truePairs_mem h with ⟨i', h'⟩ | ⟨i', h'⟩ <;> simp at h'

theorem truePairs_no_base_false {i step j : Nat} :
    Event.base i false ∉ truePairs step j := by
  intro h
  rcases truePairs_mem h with ⟨i', h'⟩ | ⟨i', h'⟩ <;> simp at h'

theorem fb_no_istep {S : Solver} {canon : SigBit → SigBit} {P : List Formula} {k : Nat}
    {ws : List Cell} {i : Nat} {b : Bool} :
    Event.istep i b ∉ (fallbackLoop S canon P k ws).1 := by
  intro h
  rcases fb_events_mem S canon P k h with ⟨cid, q, b', h'⟩ | ⟨cid, h'⟩ <;> simp at h'

theorem fb_no_base {S : Solver} {canon : SigBit → SigBit} {P : List Formula} {k : Nat}
    {ws : List Cell} {i : Nat} {b : Bool} :
    Event.base i b ∉ (fallbackLoop S canon P k ws).1 := by
  intro h
  rcases fb_events_mem S canon P k h with ⟨cid, q, b', h'⟩ | ⟨cid, h'⟩ <;> simp at h'

/-- An event whose solver answer (if it is a solver call) was SAT. -/
def callResultTrue : Event → Prop
| .base _ b => b = true
| .istep _ b => b = true
| .fback _ _ b => b = true
| .rewrite _ => True

/-- C2: every `$equiv` rewrite performed by a run is guarded by an UNSAT
solver answer — either the inductive-step UNSAT that proves the whole workset,
or that marker's own fallback query returning UNSAT — and on runs where every
solver call comes back SAT the module is left unmodified. -/
theorem claim2_rewrites_guarded (S : Solver) (cells : List Cell) (canon : SigBit → SigBit)
    (ws : List Cell) (maxseq : Nat) :
    (∀ cid, Event.rewrite cid ∈ (run S cells canon ws maxseq).events →
      (∃ s, Event.istep s false ∈ (run S cells canon ws maxseq).events) ∨
      (∃ q, Event.fback cid q false ∈ (run S cells canon ws maxseq).events)) ∧
    ((∀ e ∈ (run S cells canon ws maxseq).events, callResultTrue e) →
      (run S cells canon ws maxseq).cells = cells) := by
  rw [run_eq]
  rcases runLoop_shape S cells canon ws maxseq maxseq 1
      (runInit cells canon).1 (runInit cells canon).2 with
    ⟨j, hj, hall, hbq, hiq, heq⟩ | ⟨j, hj, hall, hbq, heq⟩ | ⟨hall, heq⟩
  · rw [heq]
    constructor
    · intro cid _
      exact Or.inl ⟨1 + j, by simp⟩
    · intro htrue
      have h := htrue (Event.istep (1 + j) false) (by simp)
      simp [callResultTrue] at h
  · rw [heq]
    constructor
    · intro cid hmem
      simp only [consEvents, fbResult, List.mem_append, List.mem_cons] at hmem
      rcases hmem with (hmem | hmem | hmem) | hmem
      · exact absurd hmem truePairs_no_rewrite
      · simp at hmem
      · simp at hmem
      · rcases fb_rewrite_just S canon _ maxseq hmem with ⟨q, hq⟩
        refine Or.inr ⟨q, ?_⟩
        simp only [consEvents, fbResult, List.mem_append]
        exact Or.inr hq
    · intro htrue
      have h := htrue (Event.base (1 + j) false) (by simp [consEvents, fbResult])
      simp [callResultTrue] at h
  · rw [heq]
    constructor
    · intro cid hmem
      simp only [consEvents, fbResult, List.mem_append] at hmem
      rcases hmem with hmem | hmem
      · exact absurd hmem truePairs_no_rewrite
      · rcases fb_rewrite_just S canon _ maxseq hmem with ⟨q, hq⟩
        refine Or.inr ⟨q, ?_⟩
        simp only [consEvents, fbResult, List.mem_append]
        exact Or.inr hq
    · intro htrue
      have hfb : ∀ c ∈ ws, S (iterN cells canon maxseq 1
          (runInit cells canon)).1.perms (xorQuery canon c maxseq) = true := by
        intro c hc
        have hm := fb_fback_mem S canon
          (iterN cells canon maxseq 1 (runInit cells canon)).1.perms maxseq hc
        have h := htrue (Event.fback c.cid (xorQuery canon c maxseq)
          (S (iterN cells canon maxseq 1 (runInit cells canon)).1.perms
            (xorQuery canon c maxseq)))
          (by simp only [consEvents, fbResult, List.mem_append]; exact Or.inr hm)
        simpa [callResultTrue] using h
      have hnil := fb_all_true S canon _ maxseq hfb
      simp only [consEvents, fbResult]
      rw [hnil, applyRewrites_nil]

/-- C3: if an inductive-step query at step `i` comes back UNSAT, the worker
rewrites the `B` port of every workset marker to its `A` port, adds the
workset size to the success counter, and returns at once — the only events
after that query are the rewrites, so no further solver query is issued. -/
theorem claim3_induction_success (S : Solver) (cells : List Cell) (canon : SigBit → SigBit)
    (ws : List Cell) (maxseq : Nat) (i : Nat)
    (h : Event.istep i false ∈ (run S cells canon ws maxseq).events) :
    (run S cells canon ws maxseq).rewritten = ws.map (fun c => c.cid) ∧
    (run S cells canon ws maxseq).success = ws.length ∧
    (run S cells canon ws maxseq).cells = applyRewrites (ws.map (fun c => c.cid)) cells ∧
    ∃ pre, (run S cells canon ws maxseq).events =
      pre ++ Event.istep i false :: ws.map (fun c => Event.rewrite c.cid) := by
  rw [run_eq] at h ⊢
  rcases runLoop_shape S cells canon ws maxseq maxseq 1
      (runInit cells canon).1 (runInit cells canon).2 with
    ⟨j, hj, hall, hbq, hiq, heq⟩ | ⟨j, hj, hall, hbq, heq⟩ | ⟨hall, heq⟩
  · rw [heq] at h ⊢
    have hi : i = 1 + j := by
      rcases List.mem_append.mp h with h' | h'
      · exact absurd h' truePairs_no_istep_false
      · rcases List.mem_cons.mp h' with h'' | h''
        · simp at h''
        · rcases List.mem_cons.mp h'' with h'' | h''
          · exact (Event.istep.inj h'').1
          · rcases List.mem_map.mp h'' with ⟨c, _, hc⟩
            simp at hc
    subst hi
    refine ⟨rfl, rfl, rfl, truePairs 1 j ++ [Event.base (1 + j) true], ?_⟩
    simp
  · rw [heq] at h
    simp only [consEvents, fbResult, List.mem_append, List.mem_cons] at h
    rcases h with (h | h | h) | h
    · exact absurd h truePairs_no_istep_false
    · simp at h
    · simp at h
    · exact absurd h fb_no_istep
  · rw [heq] at h
    simp only [consEvents, fbResult, List.mem_append] at h
    rcases h with h | h
    · exact absurd h truePairs_no_istep_false
    · exact absurd h fb_no_istep

theorem assumeStep_ctSteps (st : WState) (cur : Formula) :
    (assumeStep st cur).ctSteps = st.ctSteps := rfl

theorem assumeStep_assertOk (st : WState) (cur : Formula) :
    (assumeStep st cur).assertOk = st.assertOk := rfl

theorem range'_not_contains (s n : Nat) : ((List.range' s n).contains (s + n)) = false := by
  rcases bool_false_or_true ((List.range' s n).contains (s + n)) with h | h
  · exact h
  · have := List.elem_iff.mp h
    rw [List.mem_range'_1] at this
    omega

/-- The induction loop only ever encodes fresh steps: entering an iteration
with `ez_step_is_consistent` holding exactly steps `1 .. step`, the
`log_assert` in `create_timestep` can never fire and the defined-step set
stays an initial interval. -/
theorem runLoop_ct (S : Solver) (cells : List Cell) (canon : SigBit → SigBit) (ws : List Cell)
    (maxseq : Nat) : ∀ (fuel step : Nat) (st : WState) (cur : Formula),
    st.ctSteps = List.range' 1 step → st.assertOk = true →
    ∃ m, (runLoop S cells canon ws maxseq step fuel st cur).1.ctSteps = List.range' 1 m ∧
      (runLoop S cells canon ws maxseq step fuel st cur).1.assertOk = true := by
  intro fuel
  induction fuel with
  | zero =>
      intro step st cur hct hok
      exact ⟨step, by rw [runLoop_zero]; exact hct, by rw [runLoop_zero]; exact hok⟩
  | succ fuel ih =>
      intro step st cur hct hok
      have hct1 : (assumeStep st cur).ctSteps = List.range' 1 step := hct
      have hok1 : (assumeStep st cur).assertOk = true := hok
      have hcreate_ct : (loopIter cells canon step (st, cur)).1.ctSteps
          = List.range' 1 (step + 1) := by
        unfold loopIter
        rw [create_timestep_ctSteps, hct1, List.range'_1_concat]
        rw [show (1 : Nat) + step = step + 1 by omega]
      have hcreate_ok : (loopIter cells canon step (st, cur)).1.assertOk = true := by
        unfold loopIter
        rw [create_timestep_assertOk, hok1, hct1]
        have := range'_not_contains 1 step
        rw [show (1 : Nat) + step = step + 1 by omega] at this
        rw [this]
        rfl
      rcases bool_false_or_true (S (assumeStep st cur).perms Formula.tru) with hb | hb
      · rw [runLoop_succ_break S cells canon ws maxseq step fuel st cur hb]
        exact ⟨step, hct1, hok1⟩
      · rcases bool_false_or_true (S (loopIter cells canon step (st, cur)).1.perms
            (Formula.neg (loopIter cells canon step (st, cur)).2)) with hr | hr
        · rw [runLoop_succ_unsat S cells canon ws maxseq step fuel st cur hb hr]
          exact ⟨step + 1, hcreate_ct, hcreate_ok⟩
        · rw [runLoop_succ_continue S cells canon ws maxseq step fuel st cur hb hr]
          rcases ih (step + 1) (loopIter cells canon step (st, cur)).1
            (loopIter cells canon step (st, cur)).2 hcreate_ct hcreate_ok with ⟨m, h1, h2⟩
          exact ⟨m, h1, h2⟩

/-- C7: a single worker run calls `create_timestep` at pairwise distinct step
values (1, then `i+1` for successive loop iterations), so `consistent[step]`
is defined at most once per step and the `log_assert` never fails. -/
theorem claim7_distinct_steps (S : Solver) (cells : List Cell) (canon : SigBit → SigBit)
    (ws : List Cell) (maxseq : Nat) :
    (run S cells canon ws maxseq).final.assertOk = true ∧
    (run S cells canon ws maxseq).final.ctSteps.Nodup := by
  have hinit_ct : (runInit cells canon).1.ctSteps = List.range' 1 1 := by
    unfold runInit
    rw [create_timestep_ctSteps]
    rfl
  have hinit_ok : (runInit cells canon).1.assertOk = true := by
    unfold runInit
    rw [create_timestep_assertOk]
    rfl
  rcases runLoop_ct S cells canon ws maxseq maxseq 1 (runInit cells canon).1
    (runInit cells canon).2 hinit_ct hinit_ok with ⟨m, h1, h2⟩
  rw [run_eq]
  refine ⟨h2, ?_⟩
  rw [h1]
  exact List.nodup_range' _ _

/-- Count of warnings issued for a given cell id. -/
def warnCount (l : List (Nat × String)) (cid : Nat) : Nat :=
  (l.filter (fun p => p.1 == cid)).length

/-- The warning invariant: warnings are one-shot per cell, and every warned
cell is recorded in the cache. -/
def WarnInv (st : WState) : Prop :=
  (∀ cid, warnCount st.warns cid ≤ 1) ∧ (∀ p ∈ st.warns, p.1 ∈ st.warnCache)

theorem warnInv_importCellStep {st : WState} (c : Cell) (step : Int)
    (h : WarnInv st) : WarnInv (importCellStep st c step) := by
  unfold importCellStep
  by_cases hm : c.hasModel
  · simpa [hm] using h
  · by_cases hc : c.cid ∈ st.warnCache
    · simpa [hm, hc] using h
    · have hc' : st.warnCache.contains c.cid = false := by
        rcases bool_false_or_true (st.warnCache.contains c.cid) with h' | h'
        · exact h'
        · exact absurd (List.elem_iff.mp h') hc
      simp only [hm, Bool.false_eq_true, if_false, hc', hc]
      constructor
      · intro cid
        simp only [warnCount, List.filter_append]
        by_cases hcid : c.cid = cid
        · subst hcid
          have hzero : (st.warns.filter (fun p => p.1 == c.cid)).length = 0 := by
            rw [List.length_eq_zero]
            apply List.filter_eq_nil_iff.mpr
            intro p hp
            intro hbeq
            apply absurd (h.2 p hp)
            intro hmem
            rw [beq_iff_eq] at hbeq
            rw [hbeq] at hmem
            exact absurd (List.elem_iff.mpr hmem) (by simpa using hc)
          rw [List.length_append, hzero]
          simp
        · rw [List.length_append]
          have : ([(c.cid, c.ctype)].filter (fun p => p.1 == cid)).length = 0 := by
            simp [hcid]
          rw [this]
          simpa using h.1 cid
      · intro p hp
        rcases List.mem_append.mp hp with hp | hp
        · exact List.mem_append.mpr (Or.inl (h.2 p hp))
        · simp only [List.mem_singleton] at hp
          subst hp
          exact List.mem_append.mpr (Or.inr (by simp))

theorem warnInv_foldl (cells : List Cell) (step : Int) :
    ∀ st : WState, WarnInv st →
      WarnInv (cells.foldl (fun s c => importCellStep s c step) st) := by
  induction cells with
  | nil => intro st h; exact h
  | cons c rest ih =>
      intro st h
      exact ih _ (warnInv_importCellStep c step h)

theorem warnInv_create (cells : List Cell) (canon : SigBit → SigBit) (step : Nat)
    {st : WState} (h : WarnInv st) :
    WarnInv (create_timestep cells canon step st).1 := by
  unfold create_timestep
  have := warnInv_foldl cells (step : Int) st h
  exact ⟨this.1, this.2⟩

theorem warnInv_runLoop (S : Solver) (cells : List Cell) (canon : SigBit → SigBit)
    (ws : List Cell) (maxseq : Nat) : ∀ (fuel step : Nat) (st : WState) (cur : Formula),
    WarnInv st → WarnInv (runLoop S cells canon ws maxseq step fuel st cur).1 := by
  intro fuel
  induction fuel with
  | zero =>
      intro step st cur h
      rw [runLoop_zero]
      exact h
  | succ fuel ih =>
      intro step st cur h
      have h1 : WarnInv (assumeStep st cur) := ⟨h.1, h.2⟩
      rcases bool_false_or_true (S (assumeStep st cur).perms Formula.tru) with hb | hb
      · rw [runLoop_succ_break S cells canon ws maxseq step fuel st cur hb]
        exact h1
      · have h2 : WarnInv (loopIter cells canon step (st, cur)).1 :=
          warnInv_create cells canon (step + 1) h1
        rcases bool_false_or_true (S (loopIter cells canon step (st, cur)).1.perms
            (Formula.neg (loopIter cells canon step (st, cur)).2)) with hr | hr
        · rw [runLoop_succ_unsat S cells canon ws maxseq step fuel st cur hb hr]
          exact h2
        · rw [runLoop_succ_continue S cells canon ws maxseq step fuel st cur hb hr]
          exact ih (step + 1) _ _ h2

/-- Provenance of a permanent clause: either the template of a modellable
cell (instantiated at some step) or a step-consistency conjunction.  Cells
without a SAT model never contribute: their outputs stay free. -/
def ProvP (cells : List Cell) (canon : SigBit → SigBit) (f : Formula) : Prop :=
  (∃ c ∈ cells, c.hasModel = true ∧ ∃ s : Int, f = c.template.shift s) ∨
  (∃ s : Int, f = consistentF cells canon s)

theorem stepClauses_mem {cells : List Cell} {s : Int} {f : Formula}
    (h : f ∈ stepClauses cells s) :
    ∃ c ∈ cells, c.hasModel = true ∧ f = c.template.shift s := by
  rcases List.mem_filterMap.mp h with ⟨c, hc, hf⟩
  by_cases hm : c.hasModel
  · refine ⟨c, hc, hm, ?_⟩
    simp only [hm, if_true] at hf
    exact (Option.some.inj hf).symm
  · simp [hm] at hf

/-- All permanent clauses have proper provenance. -/
def PermsInv (cells : List Cell) (canon : SigBit → SigBit) (st : WState) : Prop :=
  ∀ f ∈ st.perms, ProvP cells canon f

theorem permsInv_create (cells : List Cell) (canon : SigBit → SigBit) (step : Nat)
    {st : WState} (h : PermsInv cells canon st) :
    PermsInv cells canon (create_timestep cells canon step st).1 := by
  intro f hf
  rw [create_timestep_perms] at hf
  rcases List.mem_append.mp hf with hf | hf
  · exact h f hf
  · rcases stepClauses_mem hf with ⟨c, hc, hm, hfeq⟩
    exact Or.inl ⟨c, hc, hm, (step : Int), hfeq⟩

theorem permsInv_assume (cells : List Cell) (canon : SigBit → SigBit) {st : WState}
    {cur : Formula} (h : PermsInv cells canon st) (hcur : ProvP cells canon cur) :
    PermsInv cells canon (assumeStep st cur) := by
  intro f hf
  simp only [assumeStep] at hf
  rcases List.mem_append.mp hf with hf | hf
  · exact h f hf
  · simp only [List.mem_singleton] at hf
    exact hf ▸ hcur

theorem permsInv_runLoop (S : Solver) (cells : List Cell) (canon : SigBit → SigBit)
    (ws : List Cell) (maxseq : Nat) : ∀ (fuel step : Nat) (st : WState) (cur : Formula),
    PermsInv cells canon st → cur = consistentF cells canon (step : Int) →
    PermsInv cells canon (runLoop S cells canon ws maxseq step fuel st cur).1 := by
  intro fuel
  induction fuel with
  | zero =>
      intro step st cur h _
      rw [runLoop_zero]
      exact h
  | succ fuel ih =>
      intro step st cur h hcur
      have h1 : PermsInv cells canon (assumeStep st cur) :=
        permsInv_assume cells canon h (Or.inr ⟨(step : Int), hcur⟩)
      rcases bool_false_or_true (S (assumeStep st cur).perms Formula.tru) with hb | hb
      · rw [runLoop_succ_break S cells canon ws maxseq step fuel st cur hb]
        exact h1
      · have h2 : PermsInv cells canon (loopIter cells canon step (st, cur)).1 :=
          permsInv_create cells canon (step + 1) h1
        rcases bool_false_or_true (S (loopIter cells canon step (st, cur)).1.perms
            (Formula.neg (loopIter cells canon step (st, cur)).2)) with hr | hr
        · rw [runLoop_succ_unsat S cells canon ws maxseq step fuel st cur hb hr]
          exact h2
        · rw [runLoop_succ_continue S cells canon ws maxseq step fuel st cur hb hr]
          refine ih (step + 1) _ _ h2 ?_
          unfold loopIter
          rw [create_timestep_snd]

/-- C8 (amended): the warning cache is keyed per cell, so across a whole run
at most one warning is emitted per (unmodellable) cell — and cells whose type
has no SAT model contribute no clauses, leaving their outputs as free,
unconstrained variables (every permanent clause comes from a modellable
cell's template or from a step-consistency conjunction). -/
theorem claim8_amended (S : Solver) (cells : List Cell) (canon : SigBit → SigBit)
    (ws : List Cell) (maxseq : Nat) :
    (∀ cid, warnCount (run S cells canon ws maxseq).final.warns cid ≤ 1) ∧
    (∀ f ∈ (run S cells canon ws maxseq).final.perms, ProvP cells canon f) := by
  have hinit_warn : WarnInv (runInit cells canon).1 :=
    warnInv_create cells canon 1 ⟨fun cid => by simp [wInit, warnCount], by simp [wInit]⟩
  have hinit_perms : PermsInv cells canon (runInit cells canon).1 := by
    apply permsInv_create cells canon 1
    intro f hf
    simp [wInit] at hf
  have hw := warnInv_runLoop S cells canon ws maxseq maxseq 1 (runInit cells canon).1
    (runInit cells canon).2 hinit_warn
  have hp := permsInv_runLoop S cells canon ws maxseq maxseq 1 (runInit cells canon).1
    (runInit cells canon).2 hinit_perms (by unfold runInit; rw [create_timestep_snd])
  rw [run_eq]
  exact ⟨hw.1, hp⟩

/-- The permanent clause set in force when the induction loop has exhausted
its bound and control reaches the per-marker fallback sweep. -/
def loopFinalPerms (cells : List Cell) (canon : SigBit → SigBit) (maxseq : Nat) : List Formula :=
  (iterN cells canon maxseq 1 (runInit cells canon)).1.perms

/-- C4: when the induction loop exhausts the bound without an inductive-step
UNSAT (every base and inductive-step answer was SAT), the run ends with the
per-marker fallback sweep: each workset marker gets exactly its own solve
under the assumption `A_bit[k+1] ⊕ B_bit[k+1]` (bits through the signal map),
and its `B` port is rewritten to its `A` port iff that solve returns UNSAT. -/
theorem claim4_fallback (S : Solver) (cells : List Cell) (canon : SigBit → SigBit)
    (ws : List Cell) (maxseq : Nat)
    (hnd : (ws.map (fun c => c.cid)).Nodup)
    (hbase : ∀ s b, Event.base s b ∈ (run S cells canon ws maxseq).events → b = true)
    (histep : ∀ s b, Event.istep s b ∈ (run S cells canon ws maxseq).events → b = true) :
    (run S cells canon ws maxseq).rewritten =
      (fallbackLoop S canon (loopFinalPerms cells canon maxseq) maxseq ws).2 ∧
    (run S cells canon ws maxseq).cells =
      applyRewrites (run S cells canon ws maxseq).rewritten cells ∧
    ∀ c ∈ ws,
      Event.fback c.cid (xorQuery canon c maxseq)
          (S (loopFinalPerms cells canon maxseq) (xorQuery canon c maxseq))
        ∈ (run S cells canon ws maxseq).events ∧
      (c.cid ∈ (run S cells canon ws maxseq).rewritten ↔
        S (loopFinalPerms cells canon maxseq) (xorQuery canon c maxseq) = false) := by
  rw [run_eq] at hbase histep ⊢
  rcases runLoop_shape S cells canon ws maxseq maxseq 1
      (runInit cells canon).1 (runInit cells canon).2 with
    ⟨j, hj, hall, hbq, hiq, heq⟩ | ⟨j, hj, hall, hbq, heq⟩ | ⟨hall, heq⟩
  · rw [heq] at histep
    have := histep (1 + j) false (by simp)
    simp at this
  · rw [heq] at hbase
    have := hbase (1 + j) false (by simp [consEvents, fbResult])
    simp at this
  · rw [heq]
    refine ⟨rfl, rfl, ?_⟩
    intro c hc
    constructor
    · simp only [consEvents, fbResult, List.mem_append]
      exact Or.inr (fb_fback_mem S canon _ maxseq hc)
    · exact fb_rws_iff S canon _ maxseq hnd hc

/-- Identity signal map (no wire aliasing). -/
def canonId : SigBit → SigBit := fun b => b

/-- Signal map aliasing wire 2 to wire 1. -/
def canon21 : SigBit → SigBit := fun b => if b = .wire 2 then .wire 1 else b

/-- Marker asserting `const 0 ≡ const 1` (the spec's "inherently divergent"
scenario); its template is the SatGen `$equiv` buffer `Y ↔ A`. -/
def cellDiv : Cell :=
  ⟨0, "$equiv", true, .iff (.atom 5 0) .fls, .const false, .const true, .wire 5⟩

/-- Module holding only the divergent marker. -/
def Mdiv : List Cell := [cellDiv]

/-- Marker between wires 1 and 2 (template: buffer `Y ↔ A`).  Under `canon21`
the two sides are canonically equal; under `canonId` they are independent. -/
def cellAB : Cell :=
  ⟨0, "$equiv", true, .iff (.atom 3 0) (.atom 1 0), .wire 1, .wire 2, .wire 3⟩

/-- Module holding only the wire-1/wire-2 marker. -/
def MAB : List Cell := [cellAB]

/-- Two cells of the unmodellable type `$foo` plus a marker. -/
def Mwarn : List Cell :=
  [⟨0, "$foo", false, .tru, .wire 9, .wire 9, .wire 9⟩,
   ⟨1, "$foo", false, .tru, .wire 9, .wire 9, .wire 9⟩,
   ⟨2, "$equiv", true, .iff (.atom 3 0) (.atom 1 0), .wire 1, .wire 2, .wire 3⟩]

/-- Witness for C2 at a concrete run that rewrites a marker: the rewrite of
cell 0 is justified by an UNSAT solver answer. -/
theorem claim2_witness :
    (∃ s, Event.istep s false ∈ (run solveB Mdiv canonId (driverWorkset Mdiv) 1).events) ∨
    (∃ q, Event.fback 0 q false ∈ (run solveB Mdiv canonId (driverWorkset Mdiv) 1).events) :=
  (claim2_rewrites_guarded solveB Mdiv canonId (driverWorkset Mdiv) 1).1 0 (by decide)

/-- Witness for C3 at a concrete run whose step-1 induction query is UNSAT. -/
theorem claim3_witness :
    (run solveB MAB canon21 (driverWorkset MAB) 1).rewritten
      = (driverWorkset MAB).map (fun c => c.cid) ∧
    (run solveB MAB canon21 (driverWorkset MAB) 1).success = (driverWorkset MAB).length ∧
    (run solveB MAB canon21 (driverWorkset MAB) 1).cells
      = applyRewrites ((driverWorkset MAB).map (fun c => c.cid)) MAB ∧
    ∃ pre, (run solveB MAB canon21 (driverWorkset MAB) 1).events =
      pre ++ Event.istep 1 false :: (driverWorkset MAB).map (fun c => Event.rewrite c.cid) :=
  claim3_induction_success solveB MAB canon21 (driverWorkset MAB) 1 1 (by decide)

/-- Witness for C4 at a concrete run whose induction fails and whose fallback
query stays SAT: the marker is left unchanged. -/
theorem claim4_witness :
    (run solveB MAB canonId (driverWorkset MAB) 1).rewritten =
      (fallbackLoop solveB canonId (loopFinalPerms MAB canonId 1) 1 (driverWorkset MAB)).2 ∧
    (run solveB MAB canonId (driverWorkset MAB) 1).cells =
      applyRewrites (run solveB MAB canonId (driverWorkset MAB) 1).rewritten MAB ∧
    ∀ c ∈ driverWorkset MAB,
      Event.fback c.cid (xorQuery canonId c 1)
          (solveB (loopFinalPerms MAB canonId 1) (xorQuery canonId c 1))
        ∈ (run solveB MAB canonId (driverWorkset MAB) 1).events ∧
      (c.cid ∈ (run solveB MAB canonId (driverWorkset MAB) 1).rewritten ↔
        solveB (loopFinalPerms MAB canonId 1) (xorQuery canonId c 1) = false) := by
  apply claim4_fallback solveB MAB canonId (driverWorkset MAB) 1 (by decide)
  · intro s b h
    have hev : (run solveB MAB canonId (driverWorkset MAB) 1).events
        = [Event.base 1 true, Event.istep 1 true,
           Event.fback 0 (Formula.xor (.atom 1 2) (.atom 2 2)) true] := by decide
    rw [hev] at h
    simp only [List.mem_cons, List.not_mem_nil, or_false] at h
    rcases h with h | h | h
    · exact (Event.base.inj h).2
    · exact absurd h (by simp)
    · exact absurd h (by simp)
  · intro s b h
    have hev : (run solveB MAB canonId (driverWorkset MAB) 1).events
        = [Event.base 1 true, Event.istep 1 true,
           Event.fback 0 (Formula.xor (.atom 1 2) (.atom 2 2)) true] := by decide
    rw [hev] at h
    simp only [List.mem_cons, List.not_mem_nil, or_false] at h
    rcases h with h | h | h
    · exact absurd h (by simp)
    · exact (Event.istep.inj h).2
    · exact absurd h (by simp)

/-- Witness for C8 at the two-`$foo`-cells module. -/
theorem claim8_witness :
    warnCount (run solveB Mwarn canonId (driverWorkset Mwarn) 1).final.warns 0 ≤ 1 ∧
    ProvP Mwarn canonId (consistentF Mwarn canonId 1) :=
  ⟨(claim8_amended solveB Mwarn canonId (driverWorkset Mwarn) 1).1 0,
   (claim8_amended solveB Mwarn canonId (driverWorkset Mwarn) 1).2
     (consistentF Mwarn canonId 1) (by decide)⟩

/-- C8 counterexample: the warning cache is keyed per cell, not per cell
type — with two unmodellable cells of the same type `$foo`, the run emits two
warnings for that type, refuting "at most one warning per cell type". -/
theorem claim8_counterexample :
    ¬(((run solveB Mwarn canonId (driverWorkset Mwarn) 1).final.warns.filter
        (fun p => p.2 == "$foo")).length ≤ 1) := by decide

/-- C1 counterexample: on the inherently divergent module the base-case query
at step 1 returns UNSAT, yet the run does rewrite the marker's `B` port
(the loop `break` falls through to the per-marker fallback, whose queries are
all vacuously UNSAT). -/
theorem claim1_counterexample :
    Event.base 1 false ∈ (run solveB Mdiv canonId (driverWorkset Mdiv) 1).events ∧
    (run solveB Mdiv canonId (driverWorkset Mdiv) 1).rewritten = [0] ∧
    (run solveB Mdiv canonId (driverWorkset Mdiv) 1).cells
      = [{ cellDiv with portB := cellDiv.portA }] ∧
    cellDiv.portB ≠ cellDiv.portA := by decide

/-- C1 (amended): when a base-case query returns UNSAT the worker logs the
divergence and abandons the induction loop, but the per-marker fallback still
runs; the permanent constraints being unsatisfiable, every fallback query
returns UNSAT, so every workset marker is rewritten and counted as proven. -/
theorem claim1_amended (cells : List Cell) (canon : SigBit → SigBit) (ws : List Cell)
    (maxseq i : Nat)
    (h : Event.base i false ∈ (run solveB cells canon ws maxseq).events) :
    (run solveB cells canon ws maxseq).rewritten = ws.map (fun c => c.cid) ∧
    (run solveB cells canon ws maxseq).success = ws.length ∧
    (run solveB cells canon ws maxseq).cells
      = applyRewrites (ws.map (fun c => c.cid)) cells ∧
    ∀ c ∈ ws, Event.fback c.cid (xorQuery canon c maxseq) false
      ∈ (run solveB cells canon ws maxseq).events := by
  rw [run_eq] at h ⊢
  rcases runLoop_shape solveB cells canon ws maxseq maxseq 1
      (runInit cells canon).1 (runInit cells canon).2 with
    ⟨j, hj, hall, hbq, hiq, heq⟩ | ⟨j, hj, hall, hbq, heq⟩ | ⟨hall, heq⟩
  · rw [heq] at h
    rcases List.mem_append.mp h with h' | h'
    · exact absurd h' truePairs_no_base_false
    · rcases List.mem_cons.mp h' with h'' | h''
      · simp at h''
      · rcases List.mem_cons.mp h'' with h'' | h''
        · simp at h''
        · rcases List.mem_map.mp h'' with ⟨c, _, hc⟩
          simp at hc
  · -- the break case: the permanent set is unsatisfiable, so every fallback
    -- query is UNSAT and the whole workset is rewritten
    have hperm : solveB (assumeStep (iterN cells canon j 1 (runInit cells canon)).1
        (iterN cells canon j 1 (runInit cells canon)).2).perms Formula.tru = false := hbq
    have hallq : ∀ c ∈ ws, solveB (assumeStep (iterN cells canon j 1 (runInit cells canon)).1
        (iterN cells canon j 1 (runInit cells canon)).2).perms (xorQuery canon c maxseq)
          = false :=
      fun c _ => solveB_false_mono hperm _
    have hrws := fb_all_false solveB canon _ maxseq hallq
    rw [heq]
    refine ⟨?_, ?_, ?_, ?_⟩
    · simpa [consEvents, fbResult] using hrws
    · simp only [consEvents, fbResult]
      rw [hrws, List.length_map]
    · simp only [consEvents, fbResult]
      rw [hrws]
    · intro c hc
      have := fb_fback_mem solveB canon
        (assumeStep (iterN cells canon j 1 (runInit cells canon)).1
          (iterN cells canon j 1 (runInit cells canon)).2).perms maxseq hc
      rw [hallq c hc] at this
      simp only [consEvents, fbResult, List.mem_append, List.mem_cons]
      exact Or.inr this
  · rw [heq] at h
    simp only [consEvents, fbResult, List.mem_append] at h
    rcases h with h | h
    · exact absurd h truePairs_no_base_false
    · exact absurd h fb_no_base

/-- Witness for the amended C1 at the divergent module. -/
theorem claim1_amended_witness :
    (run solveB Mdiv canonId (driverWorkset Mdiv) 1).rewritten
      = (driverWorkset Mdiv).map (fun c => c.cid) ∧
    (run solveB Mdiv canonId (driverWorkset Mdiv) 1).success = (driverWorkset Mdiv).length ∧
    (run solveB Mdiv canonId (driverWorkset Mdiv) 1).cells
      = applyRewrites ((driverWorkset Mdiv).map (fun c => c.cid)) Mdiv ∧
    ∀ c ∈ driverWorkset Mdiv, Event.fback c.cid (xorQuery canonId c 1) false
      ∈ (run solveB Mdiv canonId (driverWorkset Mdiv) 1).events :=
  claim1_amended Mdiv canonId (driverWorkset Mdiv) 1 1 (by decide)

/-- C5: a marker whose `A` and `B` ports differ syntactically but map to the
same canonical bit contributes no `IFF` term to any step's consistency
conjunction, still belongs to the driver's workset, and is rewritten by every
run: either the whole workset is proven inductively, or its fallback query is
the unsatisfiable `x ⊕ x`. -/
theorem claim5_canon_equal_marker (cells : List Cell) (canon : SigBit → SigBit)
    (maxseq : Nat) (c : Cell) (hc : c ∈ cells) (htype : c.ctype = "$equiv")
    (hne : c.portA ≠ c.portB) (hcanon : canon c.portA = canon c.portB) :
    (∀ step : Int, equivTerm canon c step = none) ∧
    c ∈ driverWorkset cells ∧
    c.cid ∈ (run solveB cells canon (driverWorkset cells) maxseq).rewritten := by
  have hterm : ∀ step : Int, equivTerm canon c step = none := by
    intro step
    unfold equivTerm
    rw [if_pos htype, if_neg (by simp [hcanon])]
  have hws : c ∈ driverWorkset cells := by
    unfold driverWorkset
    rw [List.mem_filter]
    refine ⟨hc, ?_⟩
    simp [htype, hne]
  refine ⟨hterm, hws, ?_⟩
  have hxor : xorQuery canon c maxseq =
      Formula.xor (importSigBit canon (canon c.portB) ((maxseq : Int) + 1))
        (importSigBit canon (canon c.portB) ((maxseq : Int) + 1)) := by
    unfold xorQuery
    rw [hcanon]
  rw [run_eq]
  rcases runLoop_shape solveB cells canon (driverWorkset cells) maxseq maxseq 1
      (runInit cells canon).1 (runInit cells canon).2 with
    ⟨j, hj, hall, hbq, hiq, heq⟩ | ⟨j, hj, hall, hbq, heq⟩ | ⟨hall, heq⟩
  · rw [heq]
    exact List.mem_map.mpr ⟨c, hws, rfl⟩
  · rw [heq]
    have hperm : solveB (assumeStep (iterN cells canon j 1 (runInit cells canon)).1
        (iterN cells canon j 1 (runInit cells canon)).2).perms Formula.tru = false := hbq
    simp only [consEvents, fbResult]
    exact fb_mem_of_false solveB canon _ maxseq hws (solveB_false_mono hperm _)
  · rw [heq]
    simp only [consEvents, fbResult]
    apply fb_mem_of_false solveB canon _ maxseq hws
    rw [hxor]
    exact solveB_xor_self _ _

/-- Witness for C5 at the aliased-marker module. -/
theorem claim5_witness :
    (∀ step : Int, equivTerm canon21 cellAB step = none) ∧
    cellAB ∈ driverWorkset MAB ∧
    cellAB.cid ∈ (run solveB MAB canon21 (driverWorkset MAB) 1).rewritten :=
  claim5_canon_equal_marker MAB canon21 1 cellAB (by decide) (by decide) (by decide) (by decide)

/-! Time-invariance of the encoding: the clauses of step `s + d` are the
clauses of step `s` shifted by `d`, so satisfying assignments transport along
time shifts.  This is what makes the per-module processing idempotent. -/

theorem importSigBit_shift (canon : SigBit → SigBit) (b : SigBit) (s d : Int) :
    importSigBit canon b (s + d) = (importSigBit canon b s).shift d := by
  unfold importSigBit
  cases canon b with
  | const c => cases c <;> simp [Formula.shift]
  | wire w => rfl

theorem equivTerm_shift (canon : SigBit → SigBit) (c : Cell) (s d : Int) :
    equivTerm canon c (s + d) = (equivTerm canon c s).map (Formula.shift d) := by
  unfold equivTerm
  by_cases h1 : c.ctype = "$equiv"
  · by_cases h2 : canon c.portA ≠ canon c.portB
    · simp [h1, h2, importSigBit_shift, Formula.shift]
    · simp [h1, h2]
  · simp [h1]

theorem conj_shift (l : List Formula) (d : Int) :
    (conj l).shift d = conj (l.map (Formula.shift d)) := by
  induction l with
  | nil => rfl
  | cons f fs ih => simp only [conj, List.foldr, Formula.shift, List.map_cons] at ih ⊢; rw [ih]

theorem consistentF_shift (cells : List Cell) (canon : SigBit → SigBit) (s d : Int) :
    consistentF cells canon (s + d) = (consistentF cells canon s).shift d := by
  unfold consistentF
  have hfun : (fun c => equivTerm canon c (s + d))
      = (fun c => (equivTerm canon c s).map (Formula.shift d)) := by
    funext c
    rw [equivTerm_shift]
  rw [conj_shift, List.map_filterMap, hfun]

/-- `stepClauses` with a natural step index. -/
def stepClausesN (cells : List Cell) (s : Nat) : List Formula := stepClauses cells (s : Int)

/-- `consistent[s]` with a natural step index. -/
def consistentN (cells : List Cell) (canon : SigBit → SigBit) (s : Nat) : Formula :=
  consistentF cells canon (s : Int)

/-- The permanent clauses appended by `j` loop iterations starting at loop
variable `step`: assume `consistent[step]`, then the step-`step+1` cell
clauses, and so on. -/
def segs (cells : List Cell) (canon : SigBit → SigBit) : Nat → Nat → List Formula
| _, 0 => []
| step, j+1 =>
    (consistentN cells canon step :: stepClausesN cells (step + 1)) ++ segs cells canon (step + 1) j

theorem iterN_snd (cells : List Cell) (canon : SigBit → SigBit) :
    ∀ (j step : Nat) (p : WState × Formula), p.2 = consistentN cells canon step →
    (iterN cells canon j step p).2 = consistentN cells canon (step + j) := by
  intro j
  induction j with
  | zero => intro step p h; simpa using h
  | succ j ih =>
      intro step p h
      rw [iterN_succ]
      have := ih (step + 1) (loopIter cells canon step p) (by
        unfold loopIter
        rw [create_timestep_snd]
        rfl)
      rw [this]
      congr 1
      omega

theorem iterN_perms (cells : List Cell) (canon : SigBit → SigBit) :
    ∀ (j step : Nat) (p : WState × Formula), p.2 = consistentN cells canon step →
    (iterN cells canon j step p).1.perms = p.1.perms ++ segs cells canon step j := by
  intro j
  induction j with
  | zero => intro step p _; simp [iterN, segs]
  | succ j ih =>
      intro step p h
      rw [iterN_succ]
      have hsnd : (loopIter cells canon step p).2 = consistentN cells canon (step + 1) := by
        unfold loopIter
        rw [create_timestep_snd]
        rfl
      rw [ih (step + 1) (loopIter cells canon step p) hsnd]
      have hperm : (loopIter cells canon step p).1.perms
          = p.1.perms ++ (consistentN cells canon step :: stepClausesN cells (step + 1)) := by
        unfold loopIter
        rw [create_timestep_perms]
        simp [assumeStep, h, stepClausesN]
      rw [hperm]
      simp [segs]

theorem segs_mem (cells : List Cell) (canon : SigBit → SigBit) :
    ∀ (j step : Nat) (f : Formula), f ∈ segs cells canon step j ↔
      ∃ i : Nat, step ≤ i ∧ i < step + j ∧
        (f = consistentN cells canon i ∨ f ∈ stepClausesN cells (i + 1)) := by
  intro j
  induction j with
  | zero =>
      intro step f
      simp only [segs, List.not_mem_nil, false_iff]
      rintro ⟨i, h1, h2, _⟩
      omega
  | succ j ih =>
      intro step f
      simp only [segs, List.cons_append, List.mem_cons, List.mem_append, ih (step + 1) f]
      constructor
      · rintro (rfl | h | ⟨i, h1, h2, h3⟩)
        · exact ⟨step, le_refl _, by omega, Or.inl rfl⟩
        · exact ⟨step, le_refl _, by omega, Or.inr h⟩
        · exact ⟨i, by omega, by omega, h3⟩
      · rintro ⟨i, h1, h2, h3⟩
        by_cases hi : i = step
        · subst hi
          rcases h3 with h3 | h3
          · exact Or.inl h3
          · exact Or.inr (Or.inl h3)
        · exact Or.inr (Or.inr ⟨i, by omega, by omega, h3⟩)

theorem runInit_perms (cells : List Cell) (canon : SigBit → SigBit) :
    (runInit cells canon).1.perms = stepClausesN cells 1 := by
  unfold runInit
  rw [create_timestep_perms]
  rfl

theorem runInit_snd (cells : List Cell) (canon : SigBit → SigBit) :
    (runInit cells canon).2 = consistentN cells canon 1 := rfl

theorem loopFinalPerms_eq (cells : List Cell) (canon : SigBit → SigBit) (k : Nat) :
    loopFinalPerms cells canon k = stepClausesN cells 1 ++ segs cells canon 1 k := by
  unfold loopFinalPerms
  rw [iterN_perms cells canon k 1 (runInit cells canon) (runInit_snd cells canon),
      runInit_perms]

theorem loopFinalPerms_mem (cells : List Cell) (canon : SigBit → SigBit) (k : Nat)
    (f : Formula) :
    f ∈ loopFinalPerms cells canon k ↔
      (∃ s : Nat, 1 ≤ s ∧ s ≤ k + 1 ∧ f ∈ stepClausesN cells s) ∨
      (∃ s : Nat, 1 ≤ s ∧ s ≤ k ∧ f = consistentN cells canon s) := by
  rw [loopFinalPerms_eq, List.mem_append, segs_mem]
  constructor
  · rintro (h | ⟨i, h1, h2, h3 | h3⟩)
    · exact Or.inl ⟨1, le_refl _, by omega, h⟩
    · exact Or.inr ⟨i, h1, by omega, h3⟩
    · exact Or.inl ⟨i + 1, by omega, by omega, h3⟩
  · rintro (⟨s, h1, h2, h3⟩ | ⟨s, h1, h2, h3⟩)
    · by_cases hs : s = 1
      · subst hs
        exact Or.inl h3
      · exact Or.inr ⟨s - 1, by omega, by omega, Or.inr (by
          rw [show s - 1 + 1 = s by omega]
          exact h3)⟩
    · exact Or.inr ⟨s, h1, by omega, Or.inl h3⟩

/-- Rewriting marker `B` ports changes neither `hasModel` nor `template`, so
the cell clauses of the rewritten module coincide with the original's. -/
theorem stepClausesN_applyRewrites (rws : List Nat) (cells : List Cell) (s : Nat) :
    stepClausesN (applyRewrites rws cells) s = stepClausesN cells s := by
  unfold stepClausesN stepClauses applyRewrites
  induction cells with
  | nil => rfl
  | cons c rest ih =>
      simp only [List.map_cons, List.filterMap_cons]
      by_cases hc : rws.contains c.cid <;> by_cases hm : c.hasModel <;>
        simp only [hc, hm, if_true, if_false, Bool.false_eq_true] <;> rw [ih]

/-- Every marker `IFF` term of the rewritten module is a term of the original
module (rewritten markers have canonically equal ports and contribute
nothing). -/
theorem consistent2_term_mem {rws : List Nat} {cells : List Cell} {canon : SigBit → SigBit}
    {s : Int} {t : Formula}
    (h : t ∈ (applyRewrites rws cells).filterMap (fun c => equivTerm canon c s)) :
    t ∈ cells.filterMap (fun c => equivTerm canon c s) := by
  rcases List.mem_filterMap.mp h with ⟨c2, hc2, ht⟩
  rcases List.mem_map.mp hc2 with ⟨c0, hc0, hmap⟩
  rcases bool_false_or_true (rws.contains c0.cid) with hin | hin
  · rw [hin] at hmap
    simp only [Bool.false_eq_true, if_false] at hmap
    subst hmap
    exact List.mem_filterMap.mpr ⟨c0, hc0, ht⟩
  · rw [hin] at hmap
    simp only [if_true] at hmap
    rw [← hmap] at ht
    unfold equivTerm at ht
    by_cases h1 : c0.ctype = "$equiv"
    · simp [h1] at ht
    · simp [h1] at ht

theorem eval_conj_true_iff (σ : Nat → Int → Bool) (l : List Formula) :
    (conj l).eval σ = true ↔ ∀ f ∈ l, f.eval σ = true := by
  rw [eval_conj]
  exact List.all_eq_true

theorem eval_conj_false_of_mem {σ : Nat → Int → Bool} {l : List Formula} {f : Formula}
    (h : f ∈ l) (hf : f.eval σ = false) : (conj l).eval σ = false := by
  rcases bool_false_or_true ((conj l).eval σ) with h' | h'
  · exact h'
  · rw [(eval_conj_true_iff σ l).mp h' f h] at hf
    simp at hf

/-- A satisfying assignment of the original module's `consistent[s]` also
satisfies the rewritten module's. -/
theorem eval_consistentN_mono {rws : List Nat} {cells : List Cell} {canon : SigBit → SigBit}
    {σ : Nat → Int → Bool} {s : Nat}
    (h : (consistentN cells canon s).eval σ = true) :
    (consistentN (applyRewrites rws cells) canon s).eval σ = true := by
  unfold consistentN consistentF at h ⊢
  rw [eval_conj_true_iff] at h ⊢
  intro f hf
  exact h f (consistent2_term_mem hf)

/-- A cell of the rewritten module whose ports still differ is an original,
unrewritten cell. -/
theorem mem_cells2_unrewritten {rws : List Nat} {cells : List Cell} {c : Cell}
    (h : c ∈ applyRewrites rws cells) (hne : c.portA ≠ c.portB) :
    c ∈ cells ∧ c.cid ∉ rws := by
  rcases List.mem_map.mp h with ⟨c0, hc0, hmap⟩
  rcases bool_false_or_true (rws.contains c0.cid) with hin | hin
  · rw [hin] at hmap
    simp only [Bool.false_eq_true, if_false] at hmap
    subst hmap
    refine ⟨hc0, fun hmem => ?_⟩
    have hcc : rws.contains c0.cid = true := List.elem_iff.mpr hmem
    rw [hin] at hcc
    simp at hcc
  · rw [hin] at hmap
    simp only [if_true] at hmap
    rw [← hmap] at hne
    simp at hne

/-- A workset member of the rewritten module was a workset member of the
original module and was not rewritten. -/
theorem ws2_sub {rws : List Nat} {cells : List Cell} {c : Cell}
    (h : c ∈ driverWorkset (applyRewrites rws cells)) :
    c ∈ driverWorkset cells ∧ c.cid ∉ rws := by
  rcases List.mem_filter.mp h with ⟨hmem, hpred⟩
  have hne : c.portA ≠ c.portB := by
    simp only [Bool.and_eq_true, beq_iff_eq, bne_iff_ne, ne_eq] at hpred
    exact hpred.2
  rcases mem_cells2_unrewritten hmem hne with ⟨hc, hrw⟩
  exact ⟨List.mem_filter.mpr ⟨hc, hpred⟩, hrw⟩

theorem eval_xor_self (σ : Nat → Int → Bool) (f : Formula) :
    (Formula.xor f f).eval σ = false := by
  simp [Formula.eval]

/-- `σ` satisfies all cell clauses up to step `mSC` and all step-consistency
conjunctions up to step `mCF`. -/
def SatUpTo (cells : List Cell) (canon : SigBit → SigBit) (σ : Nat → Int → Bool)
    (mSC mCF : Nat) : Prop :=
  (∀ s : Nat, 1 ≤ s → s ≤ mSC → ∀ f ∈ stepClausesN cells s, f.eval σ = true) ∧
  (∀ s : Nat, 1 ≤ s → s ≤ mCF → (consistentN cells canon s).eval σ = true)

theorem eval_template_shift (σ : Nat → Int → Bool) (t : Formula) (s d : Nat) :
    (t.shift (s : Int)).eval (fun w t' => σ w (t' + (d : Int)))
      = (t.shift ((s + d : Nat) : Int)).eval σ := by
  rw [eval_shift, show ((s + d : Nat) : Int) = (s : Int) + (d : Int) by push_cast; ring,
      eval_shift]
  apply eval_congr
  intro p _
  congr 1
  ring

theorem eval_consistentN_shift (cells : List Cell) (canon : SigBit → SigBit)
    (σ : Nat → Int → Bool) (s d : Nat) :
    (consistentN cells canon s).eval (fun w t => σ w (t + (d : Int)))
      = (consistentN cells canon (s + d)).eval σ := by
  unfold consistentN
  rw [show ((s + d : Nat) : Int) = (s : Int) + (d : Int) by push_cast; ring]
  rw [consistentF_shift, eval_shift]

/-- Satisfaction of the full-depth encoding transports backwards along time
shifts: an assignment good for steps `1 .. K+1` yields, for any `i ≤ K`, an
assignment good for steps `1 .. i+1` (shift by `K - i`). -/
theorem SatUpTo_shift {cells : List Cell} {canon : SigBit → SigBit} {σ : Nat → Int → Bool}
    {K i : Nat} (hK : SatUpTo cells canon σ (K + 1) K) (hi : i ≤ K) :
    SatUpTo cells canon (fun w t => σ w (t + ((K - i : Nat) : Int))) (i + 1) i := by
  constructor
  · intro s hs1 hs2 f hf
    rcases stepClauses_mem hf with ⟨c, hc, hm, hfeq⟩
    subst hfeq
    rw [eval_template_shift]
    apply hK.1 (s + (K - i)) (by omega) (by omega)
    exact List.mem_filterMap.mpr ⟨c, hc, by simp [hm]⟩
  · intro s hs1 hs2
    rw [eval_consistentN_shift]
    exact hK.2 (s + (K - i)) (by omega) (by omega)

theorem consistentN_false_shift {cells : List Cell} {canon : SigBit → SigBit}
    {σ : Nat → Int → Bool} {i K : Nat} (hi : i ≤ K)
    (hfalse : (consistentN cells canon (K + 1)).eval σ = false) :
    (consistentN cells canon (i + 1)).eval
      (fun w t => σ w (t + ((K - i : Nat) : Int))) = false := by
  rw [eval_consistentN_shift, show i + 1 + (K - i) = K + 1 by omega]
  exact hfalse

/-- A marker of the module whose XOR query is satisfied by `σ` falsifies the
module's step-`k+1` consistency conjunction under `σ`. -/
theorem eval_consistentN_false_of_marker {cells : List Cell} {canon : SigBit → SigBit}
    {σ : Nat → Int → Bool} {c : Cell} {k : Nat}
    (hc : c ∈ cells) (htype : c.ctype = "$equiv")
    (hq : (xorQuery canon c k).eval σ = true) :
    (consistentN cells canon (k + 1)).eval σ = false := by
  have hcast : ((k : Int) + 1) = ((k + 1 : Nat) : Int) := by push_cast; ring
  have hne : canon c.portA ≠ canon c.portB := by
    intro h
    unfold xorQuery at hq
    rw [h, eval_xor_self] at hq
    simp at hq
  have hterm : equivTerm canon c ((k + 1 : Nat) : Int)
      = some (.iff (importSigBit canon (canon c.portA) ((k + 1 : Nat) : Int))
                   (importSigBit canon (canon c.portB) ((k + 1 : Nat) : Int))) := by
    unfold equivTerm
    rw [if_pos htype, if_pos hne]
  have hiff : (Formula.iff (importSigBit canon (canon c.portA) ((k + 1 : Nat) : Int))
      (importSigBit canon (canon c.portB) ((k + 1 : Nat) : Int))).eval σ = false := by
    unfold xorQuery at hq
    rw [hcast] at hq
    simp only [Formula.eval] at hq ⊢
    simpa using hq
  unfold consistentN consistentF
  exact eval_conj_false_of_mem (List.mem_filterMap.mpr ⟨c, hc, hterm⟩) hiff

/-- Satisfaction of every formula in the perms built by `j` completed loop
iterations (initial step-1 clauses plus the iteration segments). -/
theorem eval_segsPerms {cells : List Cell} {canon : SigBit → SigBit} {σ : Nat → Int → Bool}
    {mSC mCF : Nat} (h : SatUpTo cells canon σ mSC mCF) (j : Nat)
    (hj1 : j + 1 ≤ mSC) (hj2 : j ≤ mCF) (h1 : 1 ≤ mSC) :
    ∀ f ∈ stepClausesN cells 1 ++ segs cells canon 1 j, f.eval σ = true := by
  intro f hf
  rcases List.mem_append.mp hf with hf | hf
  · exact h.1 1 (by omega) (by omega) f hf
  · rcases (segs_mem cells canon j 1 f).mp hf with ⟨i, hi1, hi2, hf | hf⟩
    · rw [hf]
      exact h.2 i (by omega) (by omega)
    · exact h.1 (i + 1) (by omega) (by omega) f hf

theorem processModule_empty {S : Solver} {cells : List Cell} {canon : SigBit → SigBit}
    {maxseq : Nat} (h : (driverWorkset cells).isEmpty = true) :
    processModule S cells canon maxseq = (cells, 0, []) := by
  simp [processModule, h]

theorem processModule_nonempty {S : Solver} {cells : List Cell} {canon : SigBit → SigBit}
    {maxseq : Nat} (h : ¬(driverWorkset cells).isEmpty = true) :
    processModule S cells canon maxseq =
      ((run S cells canon (driverWorkset cells) maxseq).cells,
       (run S cells canon (driverWorkset cells) maxseq).success,
       (run S cells canon (driverWorkset cells) maxseq).rewritten) := by
  simp [processModule, h]

theorem run_cells_rewritten (S : Solver) (cells : List Cell) (canon : SigBit → SigBit)
    (ws : List Cell) (maxseq : Nat) :
    (run S cells canon ws maxseq).cells
      = applyRewrites (run S cells canon ws maxseq).rewritten cells := rfl

theorem run_success_length (S : Solver) (cells : List Cell) (canon : SigBit → SigBit)
    (ws : List Cell) (maxseq : Nat) :
    (run S cells canon ws maxseq).success = (run S cells canon ws maxseq).rewritten.length := by
  rw [run_eq]
  rcases runLoop_shape S cells canon ws maxseq maxseq 1
      (runInit cells canon).1 (runInit cells canon).2 with
    ⟨j, hj, hall, hbq, hiq, heq⟩ | ⟨j, hj, hall, hbq, heq⟩ | ⟨hall, heq⟩ <;>
    rw [heq] <;> simp [consEvents, fbResult]

theorem loopFinalPerms_pair (cells : List Cell) (canon : SigBit → SigBit) (k : Nat) :
    (iterN cells canon k 1 ((runInit cells canon).1, (runInit cells canon).2)).1.perms
      = loopFinalPerms cells canon k := rfl

theorem iterN_perms_run (cells : List Cell) (canon : SigBit → SigBit) (j : Nat) :
    (iterN cells canon j 1 ((runInit cells canon).1, (runInit cells canon).2)).1.perms
      = stepClausesN cells 1 ++ segs cells canon 1 j := by
  rw [iterN_perms cells canon j 1 ((runInit cells canon).1, (runInit cells canon).2)
    (runInit_snd cells canon)]
  rw [show ((runInit cells canon).1, (runInit cells canon).2).1 = (runInit cells canon).1
    from rfl]
  rw [runInit_perms]

theorem iterN_snd_run (cells : List Cell) (canon : SigBit → SigBit) (j : Nat) :
    (iterN cells canon j 1 ((runInit cells canon).1, (runInit cells canon).2)).2
      = consistentN cells canon (1 + j) :=
  iterN_snd cells canon j 1 _ (runInit_snd cells canon)

/-- A marker of the first run's workset that the first run did not rewrite
received a SAT answer from its fallback query over the final permanent set. -/
theorem run1_survivor_sat {cells : List Cell} {canon : SigBit → SigBit} {maxseq : Nat}
    {c : Cell} (hc : c ∈ driverWorkset cells)
    (hnr : c.cid ∉ (run solveB cells canon (driverWorkset cells) maxseq).rewritten) :
    solveB (loopFinalPerms cells canon maxseq) (xorQuery canon c maxseq) = true := by
  rw [run_eq] at hnr
  rcases runLoop_shape solveB cells canon (driverWorkset cells) maxseq maxseq 1
      (runInit cells canon).1 (runInit cells canon).2 with
    ⟨j, hj, hall, hbq, hiq, heq⟩ | ⟨j, hj, hall, hbq, heq⟩ | ⟨hall, heq⟩
  · rw [heq] at hnr
    exact absurd (List.mem_map.mpr ⟨c, hc, rfl⟩) hnr
  · rw [heq] at hnr
    exfalso
    apply hnr
    simp only [consEvents, fbResult]
    have hbq' : solveB (assumeStep
        (iterN cells canon j 1 ((runInit cells canon).1, (runInit cells canon).2)).1
        (iterN cells canon j 1 ((runInit cells canon).1, (runInit cells canon).2)).2).perms
        Formula.tru = false := hbq
    exact fb_mem_of_false solveB canon _ maxseq hc (solveB_false_mono hbq' _)
  · rw [heq] at hnr
    simp only [consEvents, fbResult] at hnr
    rcases bool_false_or_true (solveB (loopFinalPerms cells canon maxseq)
        (xorQuery canon c maxseq)) with hr | hr
    · exfalso
      apply hnr
      rw [← loopFinalPerms_pair] at hr
      exact fb_mem_of_false solveB canon _ maxseq hc hr
    · exact hr

/-- Such a surviving marker has a counter-assignment: it satisfies the whole
bounded encoding (steps `1 .. k+1` clauses and `consistent[1 .. k]`) while
making the marker's two bits disagree at step `k+1`. -/
theorem run1_survivor_assignment {cells : List Cell} {canon : SigBit → SigBit} {maxseq : Nat}
    {c : Cell} (hc : c ∈ driverWorkset cells)
    (hnr : c.cid ∉ (run solveB cells canon (driverWorkset cells) maxseq).rewritten) :
    ∃ σ, (xorQuery canon c maxseq).eval σ = true ∧
      SatUpTo cells canon σ (maxseq + 1) maxseq := by
  rcases (solveB_iff _ _).mp (run1_survivor_sat hc hnr) with ⟨σ, hq, hP⟩
  refine ⟨σ, hq, ?_, ?_⟩
  · intro s hs1 hs2 f hf
    exact hP f ((loopFinalPerms_mem cells canon maxseq f).mpr (Or.inl ⟨s, hs1, hs2, hf⟩))
  · intro s hs1 hs2
    exact hP _ ((loopFinalPerms_mem cells canon maxseq _).mpr (Or.inr ⟨s, hs1, hs2, rfl⟩))

theorem SatUpTo_applyRewrites {rws : List Nat} {cells : List Cell} {canon : SigBit → SigBit}
    {σ : Nat → Int → Bool} {m1 m2 : Nat} (h : SatUpTo cells canon σ m1 m2) :
    SatUpTo (applyRewrites rws cells) canon σ m1 m2 := by
  constructor
  · intro s hs1 hs2 f hf
    rw [stepClausesN_applyRewrites] at hf
    exact h.1 s hs1 hs2 f hf
  · intro s hs1 hs2
    exact eval_consistentN_mono (h.2 s hs1 hs2)

/-- If every workset marker of a module has a counter-assignment that
satisfies the bounded encoding and falsifies `consistent[k+1]`, a run of the
worker (with the semantic solver) rewrites nothing: every base-case and
inductive-step query is SAT (using time-shifted counter-assignments), and so
is every fallback query. -/
theorem run2_no_rewrites {cells₂ : List Cell} {canon : SigBit → SigBit} {maxseq : Nat}
    (hσ : ∀ c ∈ driverWorkset cells₂, ∃ σ,
        (xorQuery canon c maxseq).eval σ = true ∧
        SatUpTo cells₂ canon σ (maxseq + 1) maxseq ∧
        (consistentN cells₂ canon (maxseq + 1)).eval σ = false)
    (hne : driverWorkset cells₂ ≠ []) :
    (run solveB cells₂ canon (driverWorkset cells₂) maxseq).rewritten = [] := by
  obtain ⟨c0, hc0⟩ := List.exists_mem_of_ne_nil _ hne
  obtain ⟨σ0, hq0, hsat0, hcf0⟩ := hσ c0 hc0
  have hbase2 : ∀ j, j < maxseq → baseQ solveB cells₂ canon 1 j
      ((runInit cells₂ canon).1, (runInit cells₂ canon).2) = true := by
    intro j hj
    show solveB (assumeStep
        (iterN cells₂ canon j 1 ((runInit cells₂ canon).1, (runInit cells₂ canon).2)).1
        (iterN cells₂ canon j 1 ((runInit cells₂ canon).1, (runInit cells₂ canon).2)).2).perms
        Formula.tru = true
    apply (solveB_iff _ _).mpr
    refine ⟨σ0, by simp [Formula.eval], ?_⟩
    intro f hf
    simp only [assumeStep, iterN_perms_run, iterN_snd_run, List.mem_append,
      List.mem_singleton] at hf
    rcases hf with (hf | hf) | hf
    · exact hsat0.1 1 (by omega) (by omega) f hf
    · rcases (segs_mem cells₂ canon j 1 f).mp hf with ⟨i, hi1, hi2, hf' | hf'⟩
      · rw [hf']
        exact hsat0.2 i (by omega) (by omega)
      · exact hsat0.1 (i + 1) (by omega) (by omega) f hf'
    · rw [hf]
      exact hsat0.2 (1 + j) (by omega) (by omega)
  have histep2 : ∀ j, j < maxseq → istepQ solveB cells₂ canon 1 j
      ((runInit cells₂ canon).1, (runInit cells₂ canon).2) = true := by
    intro j hj
    show solveB (loopIter cells₂ canon (1 + j)
        (iterN cells₂ canon j 1 ((runInit cells₂ canon).1, (runInit cells₂ canon).2))).1.perms
      (Formula.neg (loopIter cells₂ canon (1 + j)
        (iterN cells₂ canon j 1 ((runInit cells₂ canon).1, (runInit cells₂ canon).2))).2) = true
    have hperm : (loopIter cells₂ canon (1 + j)
        (iterN cells₂ canon j 1 ((runInit cells₂ canon).1, (runInit cells₂ canon).2))).1.perms
        = ((stepClausesN cells₂ 1 ++ segs cells₂ canon 1 j)
            ++ [consistentN cells₂ canon (1 + j)]) ++ stepClausesN cells₂ (1 + j + 1) := by
      unfold loopIter
      rw [create_timestep_perms]
      simp only [assumeStep, iterN_perms_run, iterN_snd_run]
      rfl
    have hsnd : (loopIter cells₂ canon (1 + j)
        (iterN cells₂ canon j 1 ((runInit cells₂ canon).1, (runInit cells₂ canon).2))).2
        = consistentN cells₂ canon (1 + j + 1) := by
      unfold loopIter
      rw [create_timestep_snd]
      rfl
    rw [hperm, hsnd]
    have hsat' : SatUpTo cells₂ canon
        (fun w t => σ0 w (t + ((maxseq - (j + 1) : Nat) : Int))) (j + 1 + 1) (j + 1) :=
      SatUpTo_shift hsat0 (by omega)
    have hfalse' : (consistentN cells₂ canon (1 + j + 1)).eval
        (fun w t => σ0 w (t + ((maxseq - (j + 1) : Nat) : Int))) = false := by
      rw [show (1 : Nat) + j + 1 = j + 1 + 1 by omega]
      exact consistentN_false_shift (by omega) hcf0
    apply (solveB_iff _ _).mpr
    refine ⟨fun w t => σ0 w (t + ((maxseq - (j + 1) : Nat) : Int)), ?_, ?_⟩
    · simp only [Formula.eval]
      rw [hfalse']
      rfl
    · intro f hf
      rcases List.mem_append.mp hf with hf | hf
      · rcases List.mem_append.mp hf with hf | hf
        · exact eval_segsPerms hsat' j (by omega) (by omega) (by omega) f hf
        · simp only [List.mem_singleton] at hf
          rw [hf]
          exact hsat'.2 (1 + j) (by omega) (by omega)
      · exact hsat'.1 (1 + j + 1) (by omega) (by omega) f hf
  rw [run_eq]
  rcases runLoop_shape solveB cells₂ canon (driverWorkset cells₂) maxseq maxseq 1
      (runInit cells₂ canon).1 (runInit cells₂ canon).2 with
    ⟨j, hj, hall, hbq, hiq, heq⟩ | ⟨j, hj, hall, hbq, heq⟩ | ⟨hall, heq⟩
  · rw [histep2 j hj] at hiq
    simp at hiq
  · rw [hbase2 j hj] at hbq
    simp at hbq
  · rw [heq]
    simp only [consEvents, fbResult]
    apply fb_all_true
    intro c hc
    obtain ⟨σc, hqc, hsatc, _⟩ := hσ c hc
    rw [loopFinalPerms_pair]
    apply (solveB_iff _ _).mpr
    refine ⟨σc, hqc, ?_⟩
    intro f hf
    rcases (loopFinalPerms_mem cells₂ canon maxseq f).mp hf with
      ⟨s, hs1, hs2, hf⟩ | ⟨s, hs1, hs2, hf⟩
    · exact hsatc.1 s hs1 hs2 f hf
    · rw [hf]
      exact hsatc.2 s hs1 hs2

/-- C6: running the engine twice in succession on the same module with the
same bound produces zero additional rewrites on the second run; every marker
rewritten by the first run satisfies `A == B` syntactically afterwards, and
the driver excludes every such marker from the second run's workset. -/
theorem claim6_idempotent (cells : List Cell) (canon : SigBit → SigBit) (maxseq : Nat) :
    (processModule solveB (processModule solveB cells canon maxseq).1 canon maxseq).1
      = (processModule solveB cells canon maxseq).1 ∧
    (processModule solveB (processModule solveB cells canon maxseq).1 canon maxseq).2.1 = 0 ∧
    ∀ c ∈ (processModule solveB cells canon maxseq).1,
      c.cid ∈ (processModule solveB cells canon maxseq).2.2 →
        c.portA = c.portB ∧ c ∉ driverWorkset (processModule solveB cells canon maxseq).1 := by
  by_cases hws1 : (driverWorkset cells).isEmpty = true
  · simp [processModule, hws1]
  · have hgoal1 : (processModule solveB cells canon maxseq).1
        = (run solveB cells canon (driverWorkset cells) maxseq).cells := by
      rw [processModule_nonempty hws1]
    have hgoal2 : (processModule solveB cells canon maxseq).2.2
        = (run solveB cells canon (driverWorkset cells) maxseq).rewritten := by
      rw [processModule_nonempty hws1]
    rw [hgoal1, hgoal2]
    have hside : ∀ c ∈ (run solveB cells canon (driverWorkset cells) maxseq).cells,
        c.cid ∈ (run solveB cells canon (driverWorkset cells) maxseq).rewritten →
        c.portA = c.portB ∧
          c ∉ driverWorkset (run solveB cells canon (driverWorkset cells) maxseq).cells := by
      intro c hc hcid
      have hBA : c.portB = c.portA := applyRewrites_mem hc hcid
      refine ⟨hBA.symm, fun hmem => ?_⟩
      rcases List.mem_filter.mp hmem with ⟨_, hpred⟩
      simp only [Bool.and_eq_true, bne_iff_ne, ne_eq] at hpred
      exact hpred.2 hBA.symm
    by_cases hws2 : (driverWorkset
        (run solveB cells canon (driverWorkset cells) maxseq).cells).isEmpty = true
    · rw [processModule_empty hws2]
      exact ⟨rfl, rfl, hside⟩
    · rw [processModule_nonempty hws2]
      have hσall : ∀ c ∈ driverWorkset (run solveB cells canon (driverWorkset cells) maxseq).cells,
          ∃ σ, (xorQuery canon c maxseq).eval σ = true ∧
            SatUpTo (run solveB cells canon (driverWorkset cells) maxseq).cells canon σ
              (maxseq + 1) maxseq ∧
            (consistentN (run solveB cells canon (driverWorkset cells) maxseq).cells canon
              (maxseq + 1)).eval σ = false := by
        intro c hc
        have hc' : c ∈ driverWorkset (applyRewrites
            (run solveB cells canon (driverWorkset cells) maxseq).rewritten cells) := hc
        rcases ws2_sub hc' with ⟨hcw1, hcnr⟩
        rcases run1_survivor_assignment hcw1 hcnr with ⟨σ, hq, hsat⟩
        have hc2 : c ∈ (run solveB cells canon (driverWorkset cells) maxseq).cells :=
          (List.mem_filter.mp hc).1
        have htype : c.ctype = "$equiv" := by
          rcases List.mem_filter.mp hc with ⟨_, hpred⟩
          simp only [Bool.and_eq_true, beq_iff_eq] at hpred
          exact hpred.1
        exact ⟨σ, hq, SatUpTo_applyRewrites hsat,
          eval_consistentN_false_of_marker hc2 htype hq⟩
      have hne2 : driverWorkset (run solveB cells canon (driverWorkset cells) maxseq).cells
          ≠ [] := by
        intro h
        apply hws2
        rw [h]
        rfl
      have hnr2 := run2_no_rewrites hσall hne2
      refine ⟨?_, ?_, hside⟩
      · rw [run_cells_rewritten, hnr2, applyRewrites_nil]
      · rw [run_success_length, hnr2]
        rfl

/-- Witness for C6 at the wire-1/wire-2 marker module. -/
theorem claim6_witness :
    (processModule solveB (processModule solveB MAB canonId 1).1 canonId 1).1
      = (processModule solveB MAB canonId 1).1 ∧
    (processModule solveB (processModule solveB MAB canonId 1).1 canonId 1).2.1 = 0 ∧
    ∀ c ∈ (processModule solveB MAB canonId 1).1,
      c.cid ∈ (processModule solveB MAB canonId 1).2.2 →
        c.portA = c.portB ∧ c ∉ driverWorkset (processModule solveB MAB canonId 1).1 :=
  claim6_idempotent MAB canonId 1

end EquivInduct

namespace CmdParse

/-- C `atoi` digit accumulation: consume leading decimal digits, ignore the
rest. -/
def atoiDigits : List Char → Nat → Nat
| [], acc => acc
| c :: cs, acc => if c.isDigit then atoiDigits cs (acc * 10 + (c.toNat - 48)) else acc

/-- C `atoi` semantics (as used by `max_seq = atoi(args[++argidx].c_str())`):
skip leading whitespace, an optional sign, then a (possibly empty) digit
prefix; anything malformed silently yields `0`. -/
def atoi (s : String) : Int :=
  let cs := s.data.dropWhile (fun c =>
    c == ' ' || c == '\t' || c == '\n' || c == '\r' || c == '\x0b' || c == '\x0c')
  match cs with
  | '-' :: rest => -(atoiDigits rest 0 : Int)
  | '+' :: rest => (atoiDigits rest 0 : Int)
  | rest => (atoiDigits rest 0 : Int)

/-- The option loop of `EquivInductPass::execute`: starting at `argidx = 1`,
consume `-seq <arg>` pairs (the check `argidx+1 < args.size()` makes a
trailing lone `-seq` fall through to the break), stop at the first other
argument.  Returns the final `max_seq` and the unconsumed arguments. -/
def parseLoop : List String → Int → Int × List String
| [], m => (m, [])
| a :: rest, m =>
    if a = "-seq" then
      match rest with
      | v :: rest' => parseLoop rest' (atoi v)
      | [] => (m, a :: rest)
    else (m, a :: rest)

/-- Modelled from the spec: the host's `extra_args` helper (part of the pass
infrastructure, not under `src/`) treats the remaining arguments as a
selection and raises a fatal argument error on any unrecognized option token
(an argument whose first character is `-`). -/
def extra_args (remaining : List String) : Except String Unit :=
  if remaining.any (fun a => a.data.head? == some '-') then Except.error "Unexpected option"
  else Except.ok ()

/-- The argument handling of `EquivInductPass::execute`: default depth 4,
`-seq` values parsed with `atoi`, leftover arguments passed to `extra_args`.
Returns the `max_seq` the proof work would run with, or the fatal error. -/
def parseSeq (args : List String) : Except String Int :=
  let r := parseLoop (args.drop 1) 4
  match extra_args r.2 with
  | Except.ok _ => Except.ok r.1
  | Except.error e => Except.error e

/-- C9 counterexample: a malformed `-seq` argument does not cause a fatal
argument error — `atoi` silently yields `0` (which is also not `≥ 1`) and
the pass proceeds. -/
theorem claim9_counterexample :
    parseSeq ["equiv_induct", "-seq", "xyz"] = Except.ok 0 := by rfl

/-- C9 (amended): without `-seq` the depth is 4; `-seq` with a following
argument is accepted with the C `atoi` value of that argument — malformed or
non-positive values are not rejected; only a trailing lone `-seq` is a fatal
argument error, raised by the extra-argument handling before proof work. -/
theorem claim9_amended :
    parseSeq ["equiv_induct"] = Except.ok 4 ∧
    (∀ s : String, parseSeq ["equiv_induct", "-seq", s] = Except.ok (atoi s)) ∧
    parseSeq ["equiv_induct", "-seq"] = Except.error "Unexpected option" := by
  refine ⟨by rfl, ?_, by rfl⟩
  intro s
  rfl

end CmdParse

namespace OptCompare

/-- RTLIL signal bit: the constant states `S0`, `S1`, `Sx`, or a wire bit. -/
inductive Bit where
| s0 : Bit
| s1 : Bit
| sx : Bit
| wire : Nat → Bit
deriving DecidableEq

/-- `SigSpec::is_fully_const()`: every bit is a constant state. -/
def is_fully_const (s : List Bit) : Bool :=
  s.all (fun b => match b with | .wire _ => false | _ => true)

/-- `SigSpec::is_fully_zero()`: every bit is `State::S0`. -/
def is_fully_zero (s : List Bit) : Bool :=
  s.all (fun b => b == Bit.s0)

/-- An RTLIL cell as the pass reads it: name (pointer identity is resolved
through the name-keyed cell map), type, selection status, the `A`/`B`/`Y`
ports and the `A_SIGNED`/`A_WIDTH`/`Y_WIDTH` parameters. -/
structure CCell where
  name : String
  ctype : String
  selected : Bool
  portA : List Bit
  portB : List Bit
  portY : List Bit
  aSigned : Bool
  aWidth : Nat
  yWidth : Nat
deriving DecidableEq

/-- A module: its cells and its connection list. -/
structure CModule where
  cells : List CCell
  conns : List (List Bit × List Bit)
deriving DecidableEq

/-- `module->connect(a, b)`. -/
def connect (m : CModule) (a b : List Bit) : CModule :=
  { m with conns := m.conns ++ [(a, b)] }

/-- `module->remove(cell)`. -/
def removeCell (m : CModule) (c : CCell) : CModule :=
  { m with cells := m.cells.filter (fun c' => c' != c) }

/-- `module->addNot(name, a, y, is_signed)`: create a `$not` cell. -/
def addNot (m : CModule) (name : String) (a y : List Bit) (signed : Bool) : CModule :=
  { m with cells := m.cells ++ [⟨name, "$not", true, a, [], y, signed, a.length, y.length⟩] }

/-- Insertion into a name-sorted list (the `TopoSort` comparator is
`IdString::compare_ptr_by_name`). -/
def insertByName (c : CCell) : List CCell → List CCell
| [] => [c]
| x :: xs => if (compare c.name x.name) == Ordering.gt then x :: insertByName c xs
             else c :: x :: xs

/-- Sort cells by name. -/
def sortByName : List CCell → List CCell
| [] => []
| c :: cs => insertByName c (sortByName cs)

/-- Both versions collect the selected `$`-type cells into a `TopoSort` with
no edges and iterate its sorted order (sorted by cell name, since no
edges are registered). -/
def topoTargets (m : CModule) : List CCell :=
  sortByName (m.cells.filter (fun c => c.selected && c.ctype.data.head? == some '$'))

theorem mem_insertByName {x c : CCell} : ∀ {l : List CCell},
    x ∈ insertByName c l ↔ x = c ∨ x ∈ l := by
  intro l
  induction l with
  | nil => simp [insertByName]
  | cons y ys ih =>
      by_cases h : (compare c.name y.name) == Ordering.gt
      · simp only [insertByName, h, if_true, List.mem_cons, ih]
        tauto
      · simp only [insertByName, h, Bool.false_eq_true, if_false, List.mem_cons]

theorem mem_sortByName {x : CCell} : ∀ {l : List CCell}, x ∈ sortByName l ↔ x ∈ l := by
  intro l
  induction l with
  | nil => simp [sortByName]
  | cons y ys ih => simp [sortByName, mem_insertByName, ih]

theorem topoTargets_sub {m : CModule} {c : CCell} (h : c ∈ topoTargets m) : c ∈ m.cells := by
  unfold topoTargets at h
  rw [mem_sortByName] at h
  exact (List.mem_filter.mp h).1

namespace Ref

/-- The per-cell body of `optimize_compares` from `src/unnamed/part_001`
(the version with the `$lt`/`$ge` handling written inline).  The `log` calls
and the `refcount_cells_` prints do not change the module.  Out-of-range
`SigSpec` indexing (an assertion in RTLIL) is modelled with a default bit. -/
def stepCell (m : CModule) (cell : CCell) : CModule :=
  if cell.ctype = "$lt" then
    let a := cell.portA
    let y : List Bit := List.replicate cell.yWidth Bit.s0
    if is_fully_const cell.portB && is_fully_zero cell.portB then
      if cell.aSigned then
        if cell.aWidth > 0 then
          removeCell (connect m cell.portY (y.set 0 (a.getD (cell.aWidth - 1) Bit.sx))) cell
        else m
      else removeCell (connect m cell.portY y) cell
    else m
  else if cell.ctype = "$ge" then
    if is_fully_const cell.portB && is_fully_zero cell.portB then
      if cell.aSigned then
        if cell.aWidth > 0 then
          addNot (removeCell m cell) "$not"
            ((List.replicate cell.yWidth Bit.s0).set 0 (cell.portA.getD (cell.aWidth - 1) Bit.sx))
            cell.portY false
        else m
      else removeCell (connect m cell.portY (List.replicate cell.yWidth Bit.s1)) cell
    else m
  else m

/-- `optimize_compares(design, module)` from `src/unnamed/part_001` (the
`module == NULL` early return has no counterpart: the model ranges over
actual modules). -/
def optimize_compares (m : CModule) : CModule :=
  (topoTargets m).foldl stepCell m

end Ref

namespace CC

/-- `replace_le_cell` from `src/passes/opt/opt_compare.cc`.  In the unsigned
case the function returns before doing anything: the `connect`/`remove`
statements after the `return;` are dead code. -/
def replace_le_cell (cell : CCell) (m : CModule) : CModule :=
  let a := cell.portA
  let y : List Bit := List.replicate cell.yWidth Bit.s0
  if is_fully_const cell.portB && is_fully_zero cell.portB then
    if cell.aSigned then
      if cell.aWidth > 0 then
        removeCell (connect m cell.portY (y.set 0 (a.getD (cell.aWidth - 1) Bit.sx))) cell
      else m
    else m
  else m

/-- `replace_ge_cell` from `src/passes/opt/opt_compare.cc`.  As in
`replace_le_cell`, the unsigned branch returns immediately, leaving its
`connect`/`remove` statements unreachable. -/
def replace_ge_cell (cell : CCell) (m : CModule) : CModule :=
  if is_fully_const cell.portB && is_fully_zero cell.portB then
    if cell.aSigned then
      if cell.aWidth > 0 then
        addNot (removeCell m cell) "$not"
          ((List.replicate cell.yWidth Bit.s0).set 0 (cell.portA.getD (cell.aWidth - 1) Bit.sx))
          cell.portY false
      else m
    else m
  else m

/-- `optimize_compares(design, module)` from `src/passes/opt/opt_compare.cc`
(the version refactored into `replace_le_cell` / `replace_ge_cell`). -/
def optimize_compares (m : CModule) : CModule :=
  (topoTargets m).foldl (fun m cell =>
    if cell.ctype = "$lt" then replace_le_cell cell m
    else if cell.ctype = "$ge" then replace_ge_cell cell m
    else m) m

end CC

/-- A module with one selected unsigned `$lt` cell comparing wire 1 with the
constant zero. -/
def MltU : CModule :=
  { cells := [⟨"lt0", "$lt", true, [Bit.wire 1], [Bit.s0], [Bit.wire 2], false, 1, 1⟩]
    conns := [] }

/-- The same module with the comparison signed. -/
def MltS : CModule :=
  { cells := [⟨"lt0", "$lt", true, [Bit.wire 1], [Bit.s0], [Bit.wire 2], true, 1, 1⟩]
    conns := [] }

/-- C10 counterexample: on an unsigned `x < 0` cell the two routines disagree
— `part_001` replaces the cell with a constant-0 connection, the refactored
`opt_compare.cc` returns early and leaves the module unchanged. -/
theorem claim10_counterexample :
    Ref.optimize_compares MltU ≠ CC.optimize_compares MltU := by decide

/-- C10 (amended): the refactoring preserves behavior for the signed cases
(and for every cell the pattern does not match); equivalence of the two
routines therefore holds on every module in which each selected `$lt`/`$ge`
cell with fully-constant all-zero `B` has `A_SIGNED` set.  In the unsigned
zero-comparison cases the refactored routine leaves the cell unchanged
(early `return;`) while `part_001` rewrites it. -/
theorem claim10_amended (m : CModule)
    (h : ∀ c ∈ m.cells, (c.ctype = "$lt" ∨ c.ctype = "$ge") →
      is_fully_const c.portB = true → is_fully_zero c.portB = true → c.aSigned = true) :
    Ref.optimize_compares m = CC.optimize_compares m := by
  unfold Ref.optimize_compares CC.optimize_compares
  apply List.foldl_ext
  intro acc cell hcell
  have hc := h cell (topoTargets_sub hcell)
  by_cases hlt : cell.ctype = "$lt"
  · rw [if_pos hlt]
    unfold Ref.stepCell CC.replace_le_cell
    rw [if_pos hlt]
    by_cases hz : (is_fully_const cell.portB && is_fully_zero cell.portB) = true
    · have hz' := hz
      rw [Bool.and_eq_true] at hz'
      rw [if_pos hz, if_pos hz, hc (Or.inl hlt) hz'.1 hz'.2]
      simp
    · rw [if_neg hz, if_neg hz]
  · rw [if_neg hlt]
    unfold Ref.stepCell
    rw [if_neg hlt]
    by_cases hge : cell.ctype = "$ge"
    · rw [if_pos hge, if_pos hge]
      unfold CC.replace_ge_cell
      by_cases hz : (is_fully_const cell.portB && is_fully_zero cell.portB) = true
      · have hz' := hz
        rw [Bool.and_eq_true] at hz'
        rw [if_pos hz, if_pos hz, hc (Or.inr hge) hz'.1 hz'.2]
        simp
      · rw [if_neg hz, if_neg hz]
    · rw [if_neg hge, if_neg hge]

/-- Witness for the amended C10 at a signed `x < 0` module. -/
theorem claim10_witness : Ref.optimize_compares MltS = CC.optimize_compares MltS :=
  claim10_amended MltS (by decide)

end OptCompare
